import Mathlib

/-!
Leaflet.TrackPlayback: the track model of `src/leaflet.trackplayback/track.js`.

A shallow embedding of the `Track` class (sorted storage, the time index, exact lookup,
the bracketing binary search and the per-segment interpolation) together with the
properties stated for it.

Conventions of the embedding.

* Numbers are elements of a linearly ordered field `K` (exact arithmetic, no `NaN` among
  `time`, `lat`, `lng`).  The optional fields `radius` and `dir` are `JSVal K`, which
  distinguishes `undefined`, `NaN` and a number.
* `Math.sqrt`, `Math.asin`, `Math.PI` and `Number.prototype.toFixed` are not code of this
  repository; they are the fields of a parameter `JSMath K`.
* A JavaScript `undefined` result is `none`; a thrown `TypeError` is `Except.error`.
* Stored points are values.  Two entries of `_trackPoints` are taken to be distinct
  objects, so that a write to one stored point is a write at one index.
-/

namespace TrackPlayback

/-! ## Data model -/

/-- The value of an optional numeric field: absent, `NaN`, or a number. -/
inductive JSVal (K : Type) where
  | undefined : JSVal K
  | nan : JSVal K
  | num (k : K) : JSVal K
  deriving DecidableEq

/-- The binary arithmetic of JavaScript on such values: anything but two numbers is `NaN`. -/
def JSVal.arith {K : Type} (f : K → K → K) : JSVal K → JSVal K → JSVal K
  | .num a, .num b => .num (f a b)
  | _, _ => .nan

/-- A track point: the fields read or written by `track.js`. -/
structure TrackPoint (K : Type) where
  time : K
  lat : K
  lng : K
  radius : JSVal K
  dir : JSVal K
  isOrigin : Bool
  info : List (String × String)
  deriving DecidableEq

/-- The library functions of the host that `track.js` calls. -/
structure JSMath (K : Type) where
  sqrt : K → K
  asin : K → K
  pi : K
  toFixed : K → Nat → String

/-- Errors a call can end with. -/
inductive JSError where
  | typeError : JSError
  | emptyTrackError : JSError
  | nonTermination : JSError
  deriving DecidableEq

/-- The track: `_trackPoints` and the object `_timeTick` (a finite map from time to index). -/
structure Track (K : Type) where
  _trackPoints : List (TrackPoint K)
  _timeTick : K → Option Nat

/-! ## Sorting: `_sortTrackPointsByTime` -/

section Sorting

variable {α : Type}

/-- The body of the inner loop: exchange `a[j]` and `a[j+1]` when `a[j] > a[j+1]`. -/
def swapAdjacent (gt : α → α → Bool) (a : List α) (j : Nat) : List α :=
  match a[j]?, a[j + 1]? with
  | some x, some y => if gt x y then (a.set (j + 1) x).set j y else a
  | _, _ => a

/-- The inner loop `for (j = 0; j < bound; j++)`. -/
def bubblePass (gt : α → α → Bool) (a : List α) (bound : Nat) : List α :=
  (List.range bound).foldl (swapAdjacent gt) a

/-- The bubble sort `for (i = 0; i < len; i++) for (j = 0; j < len - 1 - i; j++)`. -/
def bubbleSort (gt : α → α → Bool) (a : List α) : List α :=
  (List.range a.length).foldl (fun b i => bubblePass gt b (a.length - 1 - i)) a

/-- One pass written by recursion on the list, carrying the element being bubbled up. -/
def bubbleFrom (gt : α → α → Bool) (x : α) : List α → List α
  | [] => [x]
  | y :: r => if gt x y then y :: bubbleFrom gt x r else x :: bubbleFrom gt y r

end Sorting

variable {K : Type}

/-- The comparison of the sort, `a.time > b.time`. -/
def timeGt [LinearOrder K] (a b : TrackPoint K) : Bool := decide (b.time < a.time)

/-- The method `_sortTrackPointsByTime`, on the stored list. -/
def _sortTrackPointsByTime [LinearOrder K] (pts : List (TrackPoint K)) : List (TrackPoint K) :=
  bubbleSort timeGt pts

/-! ## The time index: `_updatetimeTick` -/

/-- The loop `for (i ...) _timeTick[_trackPoints[i].time] = i`, from index `i` on. -/
def indexFrom {α κ : Type} [DecidableEq κ] (key : α → κ) (i : Nat) :
    List α → (κ → Option Nat) → κ → Option Nat
  | [], m => m
  | p :: ps, m => indexFrom key (i + 1) ps (Function.update m (key p) (some i))

/-- The method `_updatetimeTick`: start from the empty object and index every point. -/
def _updatetimeTick [DecidableEq K] (pts : List (TrackPoint K)) : K → Option Nat :=
  indexFrom (fun p => p.time) 0 pts (fun _ => none)

/-! ## Construction and insertion -/

/-- The method `_update`: sort, then rebuild the index. -/
def Track._update [LinearOrder K] (tr : Track K) : Track K :=
  let pts := _sortTrackPointsByTime tr._trackPoints
  { _trackPoints := pts, _timeTick := _updatetimeTick pts }

/-- The assignment `item.isOrigin = true`. -/
def TrackPoint.markOrigin (item : TrackPoint K) : TrackPoint K :=
  { item with isOrigin := true }

/-- The constructor: mark every point `isOrigin = true`, store, and `_update`. -/
def Track.construct [LinearOrder K] (trackData : List (TrackPoint K)) : Track K :=
  Track._update
    { _trackPoints := trackData.map TrackPoint.markOrigin, _timeTick := fun _ => none }

/-- The method `_addTrackPoint`: mark the point, push it, and `_update`. -/
def Track._addTrackPoint [LinearOrder K] (tr : Track K) (trackPoint : TrackPoint K) : Track K :=
  Track._update { tr with _trackPoints := tr._trackPoints ++ [trackPoint.markOrigin] }

/-- A track built by the constructor and then extended by single-point adds. -/
def Track.build [LinearOrder K] (trackData adds : List (TrackPoint K)) : Track K :=
  adds.foldl Track._addTrackPoint (Track.construct trackData)

/-! ## Queries -/

/-- The method `getTimes`. -/
def Track.getTimes (tr : Track K) : List K :=
  tr._trackPoints.map (fun p => p.time)

/-- The method `getStartTrackPoint`: `_trackPoints[0]`, `undefined` when there is none. -/
def Track.getStartTrackPoint (tr : Track K) : Except JSError (Option (TrackPoint K)) :=
  .ok tr._trackPoints[0]?

/-- The method `getEndTrackPoint`: `_trackPoints[length - 1]`. -/
def Track.getEndTrackPoint (tr : Track K) : Except JSError (Option (TrackPoint K)) :=
  .ok (if tr._trackPoints.length = 0 then none
       else tr._trackPoints[tr._trackPoints.length - 1]?)

/-- The method `getTrackPointByTime`: `_trackPoints[_timeTick[time]]`. -/
def Track.getTrackPointByTime (tr : Track K) (time : K) : Option (TrackPoint K) :=
  (tr._timeTick time).bind (fun i => tr._trackPoints[i]?)

/-- The invariants of the data model: the stored times ascend and `_timeTick` is the index
of the stored list. -/
def Track.Invariant [LinearOrder K] (tr : Track K) : Prop :=
  tr.getTimes.Sorted (fun a b => a ≤ b) ∧ tr._timeTick = _updatetimeTick tr._trackPoints

/-! ## Interpolation -/

/-- A property access on a value that may be `undefined`: a `TypeError` when it is. -/
def deref {α : Type} : Option α → Except JSError α
  | some a => .ok a
  | none => .error .typeError

/-- Leaflet's `Point.distanceTo` (a library of the host): `Math.sqrt(x * x + y * y)` for the
coordinate differences `x`, `y`. -/
def distanceTo [LinearOrderedField K] (M : JSMath K) (a b : K × K) : K :=
  let x := b.1 - a.1
  let y := b.2 - a.2
  M.sqrt (x * x + y * y)

/-- The method `_formatDistance`; `NaN` and `undefined` fail `distance < 1000` and print as
`NaN`. -/
def _formatDistance [LinearOrderedField K] (M : JSMath K) : JSVal K → String
  | .num distance =>
    if distance < 1000 then M.toFixed distance 2 ++ " m"
    else M.toFixed (distance / 1000) 2 ++ " km"
  | _ => "NaN km"

/-- The loop `while (right - left !== 1)` of the binary search, run for at most `fuel`
rounds; `none` when the rounds are used up.  `times[n]` out of range is `undefined`, and
`time > undefined` is false. -/
def bracketLoop [LinearOrder K] (times : List K) (time : K) : Nat → Nat → Nat → Option (Nat × Nat)
  | fuel, left, right =>
    if right - left = 1 then some (left, right)
    else
      match fuel with
      | 0 => none
      | fuel + 1 =>
        let n := (left + right) / 2
        match times[n]? with
        | some tn =>
          if tn < time then bracketLoop times time fuel n right
          else bracketLoop times time fuel left n
        | none => bracketLoop times time fuel left n

/-- The heading of the segment from `startPt` to `endPt`, in degrees. -/
def heading [LinearOrderedField K] (M : JSMath K) (startPt endPt : K × K) (sinx : K) : K :=
  if startPt.1 ≤ endPt.1 then (M.pi * (1 / 2) - M.asin sinx) * 180 / M.pi
  else (M.pi * (3 / 2) + M.asin sinx) * 180 / M.pi

/-- A write to the fields of the stored object that `getTrackPointByTime(time)` returned. -/
def Track.writeBack (tr : Track K) (time : K) (e : TrackPoint K) : Track K :=
  match tr._timeTick time with
  | some i => { tr with _trackPoints := tr._trackPoints.set i e }
  | none => tr

/-- The second half of `_getCalculateTrackPointByTime`, from `startPt = L.point(...)` on:
the point for `time` on the segment from `p0` (at `t0`) to `p1` (at `t1`), where `endpoint`
is the stored point of `time`, if any. -/
def Track.interpolate [LinearOrderedField K] (M : JSMath K) (tr : Track K) (time : K)
    (endpoint : Option (TrackPoint K)) (p0 p1 : TrackPoint K) (t0 t1 : K) :
    Option (TrackPoint K) × Track K :=
  let t := time
  let startPt := (p0.lng, p0.lat)
  let endPt := (p1.lng, p1.lat)
  let s := distanceTo M startPt endPt
  if s ≤ 0 then (some p1, tr)
  else
    let v := s / (t1 - t0)
    let r := JSVal.arith (fun a b => a / b)
      (JSVal.arith (fun a b => a - b) p1.radius p0.radius) (.num (t1 - t0))
    let sinx := (endPt.2 - startPt.2) / s
    let cosx := (endPt.1 - startPt.1) / s
    let step := v * (t - t0)
    let rstep := JSVal.arith (fun a b => a * b) r (.num (t - t0))
    let x := startPt.1 + step * cosx
    let y := startPt.2 + step * sinx
    let radius := JSVal.arith (fun a b => a + b) p0.radius rstep
    let dir := heading M startPt endPt sinx
    match endpoint with
    | some endpoint =>
      let endpoint :=
        if endpoint.dir = .undefined then { endpoint with dir := .num dir } else endpoint
      let endpoint :=
        if endpoint.radius = .undefined then { endpoint with radius := radius } else endpoint
      (some endpoint, tr.writeBack time endpoint)
    | none =>
      (some
        { lng := x, lat := y, dir := .num dir, isOrigin := false, time := time,
          radius := radius, info := [("Accuracy:", _formatDistance M radius)] }, tr)

/-- The method `_getCalculateTrackPointByTime`.  It returns the point (or `undefined`) and
the track after the call, since it may fill in `dir` and `radius` of a stored point.  An
`undefined` `t0` or `t1` makes `p0` or `p1` `undefined`, and reading its `lng` throws. -/
def Track._getCalculateTrackPointByTime [LinearOrderedField K] (M : JSMath K) (tr : Track K)
    (time : K) : Except JSError (Option (TrackPoint K) × Track K) := do
  let endpoint := tr.getTrackPointByTime time
  let startPt ← tr.getStartTrackPoint
  let endPt ← tr.getEndTrackPoint
  let times := tr.getTimes
  let startPt ← deref startPt
  let endPt ← deref endPt
  if time < startPt.time ∨ endPt.time < time then return (none, tr)
  let left := 0
  let right := times.length - 1
  if left = right then return (endpoint, tr)
  match bracketLoop times time times.length left right with
  | none => throw .nonTermination
  | some (left, right) =>
    match times[left]?, times[right]? with
    | some t0, some t1 =>
      let p0 ← deref (tr.getTrackPointByTime t0)
      let p1 ← deref (tr.getTrackPointByTime t1)
      return tr.interpolate M time endpoint p0 p1 t0 t1
    | _, _ => throw .typeError

/-- The method `getTrackPointsBeforeTime`: the stored points before `time`, then the point
of `_getCalculateTrackPointByTime` when there is one. -/
def Track.getTrackPointsBeforeTime [LinearOrderedField K] (M : JSMath K) (tr : Track K)
    (time : K) : Except JSError (List (TrackPoint K) × Track K) := do
  let tpoints := tr._trackPoints.filter (fun p => decide (p.time < time))
  let (endPt, tr) ← tr._getCalculateTrackPointByTime M time
  match endPt with
  | some endPt => return (tpoints ++ [endPt], tr)
  | none => return (tpoints, tr)

/-! ## `addTrackPoint` on a point or an array of points -/

/-- What `addTrackPoint` can be given and `_trackPoints` can come to hold: a point, or an
array of points (with the property `isOrigin` that `_addTrackPoint` sets on it). -/
inductive Item (K : Type) where
  | point (p : TrackPoint K) : Item K
  | array (ps : List (TrackPoint K)) (isOrigin : Bool) : Item K
  deriving DecidableEq

/-- The property `time` of an item; an array has none. -/
def Item.time : Item K → Option K
  | .point p => some p.time
  | .array _ _ => none

/-- The comparison `a.time > b.time` of the sort; false when a side is `undefined`. -/
def itemGt [LinearOrder K] (a b : Item K) : Bool :=
  match a.time, b.time with
  | some x, some y => decide (y < x)
  | _, _ => false

/-- The assignment `trackPoint.isOrigin = true`. -/
def Item.markOrigin : Item K → Item K
  | .point p => .point p.markOrigin
  | .array ps _ => .array ps true

/-- The track when its storage may hold any item. -/
structure RawTrack (K : Type) where
  _trackPoints : List (Item K)
  _timeTick : Option K → Option Nat

/-- The method `_update` on such a track. -/
def RawTrack._update [LinearOrder K] (tr : RawTrack K) : RawTrack K :=
  let items := bubbleSort itemGt tr._trackPoints
  { _trackPoints := items, _timeTick := indexFrom Item.time 0 items (fun _ => none) }

/-- The method `_addTrackPoint` on such a track. -/
def RawTrack._addTrackPoint [LinearOrder K] (tr : RawTrack K) (trackPoint : Item K) :
    RawTrack K :=
  RawTrack._update { tr with _trackPoints := tr._trackPoints ++ [trackPoint.markOrigin] }

/-- The method `addTrackPoint`: on an array it adds each element, and then falls through to
`_addTrackPoint` with the array itself, whose elements are by then marked. -/
def RawTrack.addTrackPoint [LinearOrder K] (tr : RawTrack K) : Item K → RawTrack K
  | .point p => tr._addTrackPoint (.point p)
  | .array ps o =>
    let tr := ps.foldl (fun tr p => tr._addTrackPoint (.point p)) tr
    tr._addTrackPoint (.array (ps.map TrackPoint.markOrigin) o)

/-- A track of points as a track of items. -/
def Track.toRaw (tr : Track K) : RawTrack K :=
  { _trackPoints := tr._trackPoints.map Item.point,
    _timeTick := fun k => match k with
      | some t => tr._timeTick t
      | none => none }

/-! ## A rational instance of the host library -/

/-- The rendering `toFixed` on rationals: round half up at `d` decimals. -/
def ratToFixed (q : ℚ) (d : Nat) : String :=
  let n : Nat := (Rat.floor (|q| * 10 ^ d + 1 / 2)).toNat
  let digits := toString (n % 10 ^ d)
  let whole := (if q < 0 then "-" else "") ++ toString (n / 10 ^ d)
  if d = 0 then whole
  else whole ++ "." ++ String.join (List.replicate (d - digits.length) "0") ++ digits

/-- The host library on rationals: `sqrt` is exact on squares, `asin` is exact at `-1`, `0`
and `1` for the rational stand-in of `pi`. -/
def ratMath : JSMath ℚ :=
  { sqrt := Rat.sqrt, asin := fun x => x * (355 / 113) / 2, pi := 355 / 113,
    toFixed := ratToFixed }

/-! ## Sample tracks -/

/-- A sample given by `time`, `lat`, `lng` and `radius`, as a caller would pass it. -/
def samplePoint (time lat lng : ℚ) (radius : JSVal ℚ) : TrackPoint ℚ :=
  { time := time, lat := lat, lng := lng, radius := radius, dir := .undefined,
    isOrigin := false, info := [] }

/-- The track of the scenario: `(0, 0)` with radius 10 at time 0, `lng = 10` with radius
20 at time 10. -/
def scenarioTrack : Track ℚ :=
  Track.construct [samplePoint 0 0 0 (.num 10), samplePoint 10 0 10 (.num 20)]

/-- A track whose two points, at times 0 and 10, are at the same position. -/
def restingTrack : Track ℚ :=
  Track.construct [samplePoint 0 0 0 (.num 10), samplePoint 10 0 0 (.num 20)]

/-! ## The bubble sort sorts, stably -/

section SortingLemmas

variable {α : Type}

theorem swapAdjacent_cons_succ (gt : α → α → Bool) (x : α) (a : List α) (j : Nat) :
    swapAdjacent gt (x :: a) (j + 1) = x :: swapAdjacent gt a j := by
  unfold swapAdjacent
  simp only [List.getElem?_cons_succ]
  cases h1 : a[j]? <;> cases h2 : a[j + 1]? <;> simp
  split <;> simp [List.set_cons_succ]

theorem foldl_swapAdjacent_cons (gt : α → α → Bool) (x : α) (l : List Nat) (a : List α) :
    (l.map Nat.succ).foldl (swapAdjacent gt) (x :: a) = x :: l.foldl (swapAdjacent gt) a := by
  induction l generalizing a with
  | nil => rfl
  | cons j l ih =>
    simp only [List.map_cons, List.foldl_cons, Nat.succ_eq_add_one, swapAdjacent_cons_succ]
    exact ih _

theorem bubblePass_zero (gt : α → α → Bool) (a : List α) : bubblePass gt a 0 = a := rfl

theorem bubblePass_cons_cons (gt : α → α → Bool) (x y : α) (r : List α) (b : Nat) :
    bubblePass gt (x :: y :: r) (b + 1) =
      if gt x y then y :: bubblePass gt (x :: r) b else x :: bubblePass gt (y :: r) b := by
  unfold bubblePass
  rw [List.range_succ_eq_map, List.foldl_cons]
  have h0 : swapAdjacent gt (x :: y :: r) 0 = if gt x y then y :: x :: r else x :: y :: r := by
    simp [swapAdjacent]
  rw [h0]
  split <;> exact foldl_swapAdjacent_cons gt _ _ _

theorem bubblePass_singleton (gt : α → α → Bool) (x : α) (b : Nat) :
    bubblePass gt [x] b = [x] := by
  unfold bubblePass
  induction b with
  | zero => rfl
  | succ b ih =>
    rw [List.range_succ, List.foldl_append, ih]
    simp [swapAdjacent]

/-- The inner loop with `bound` steps bubbles through the first `bound + 1` entries. -/
theorem bubblePass_eq (gt : α → α → Bool) (x : α) (l : List α) (b : Nat) :
    bubblePass gt (x :: l) b = bubbleFrom gt x (l.take b) ++ l.drop b := by
  induction b generalizing x l with
  | zero => simp [bubblePass_zero, bubbleFrom]
  | succ b ih =>
    cases l with
    | nil => simp [bubblePass_singleton, bubbleFrom]
    | cons y r =>
      rw [bubblePass_cons_cons]
      simp only [List.take_succ_cons, List.drop_succ_cons, bubbleFrom]
      split <;> simp [ih]

theorem bubbleFrom_length (gt : α → α → Bool) (x : α) (l : List α) :
    (bubbleFrom gt x l).length = l.length + 1 := by
  induction l generalizing x with
  | nil => rfl
  | cons y r ih => simp only [bubbleFrom]; split <;> simp [ih]

theorem bubbleFrom_perm (gt : α → α → Bool) (x : α) (l : List α) :
    (bubbleFrom gt x l).Perm (x :: l) := by
  induction l generalizing x with
  | nil => exact List.Perm.refl _
  | cons y r ih =>
    simp only [bubbleFrom]
    split
    · exact ((ih x).cons y).trans (List.Perm.swap x y r)
    · exact (ih y).cons x

end SortingLemmas

section KeyedSorting

variable {α K : Type} [LinearOrder K]

/-- A pass ends with a largest element. -/
theorem bubbleFrom_last (key : α → K) (x : α) (l : List α) :
    ∃ front m, bubbleFrom (fun a b => decide (key b < key a)) x l = front ++ [m] ∧
      ∀ a ∈ front, key a ≤ key m := by
  induction l generalizing x with
  | nil => exact ⟨[], x, rfl, by simp⟩
  | cons y r ih =>
    simp only [bubbleFrom]
    by_cases h : key y < key x
    · obtain ⟨front, m, hm, hle⟩ := ih x
      have hxm : key x ≤ key m := by
        have hx : x ∈ front ++ [m] := hm ▸ ((bubbleFrom_perm _ x r).mem_iff).2 (by simp)
        rcases List.mem_append.1 hx with hx | hx
        · exact hle x hx
        · simp at hx; simp [hx]
      refine ⟨y :: front, m, by simp [h, hm], ?_⟩
      intro a ha
      rcases List.mem_cons.1 ha with rfl | ha
      · exact le_trans (le_of_lt h) hxm
      · exact hle a ha
    · obtain ⟨front, m, hm, hle⟩ := ih y
      have hym : key y ≤ key m := by
        have hy : y ∈ front ++ [m] := hm ▸ ((bubbleFrom_perm _ y r).mem_iff).2 (by simp)
        rcases List.mem_append.1 hy with hy | hy
        · exact hle y hy
        · simp at hy; simp [hy]
      refine ⟨x :: front, m, by simp [h, hm], ?_⟩
      intro a ha
      rcases List.mem_cons.1 ha with rfl | ha
      · exact le_trans (not_lt.1 h) hym
      · exact hle a ha

/-- A pass never exchanges two elements of equal key: every key class keeps its order. -/
theorem bubbleFrom_filter (key : α → K) (k : K) (x : α) (l : List α) :
    (bubbleFrom (fun a b => decide (key b < key a)) x l).filter (fun a => decide (key a = k)) =
      (x :: l).filter (fun a => decide (key a = k)) := by
  induction l generalizing x with
  | nil => rfl
  | cons y r ih =>
    simp only [bubbleFrom]
    by_cases h : key y < key x
    · simp only [h, decide_True, if_true, List.filter_cons, ih x]
      by_cases hx : key x = k <;> by_cases hy : key y = k <;> simp [hx, hy]
      exact absurd (hx.trans hy.symm) (ne_of_gt h)
    · simp only [h, decide_False, Bool.false_eq_true, if_false, List.filter_cons, ih y]

/-- The state of the outer loop after `i` rounds: the last `i` entries are in place. -/
theorem bubbleRounds_spec (key : α → K) (a : List α) (i : Nat) (hi : i ≤ a.length) :
    ∃ front back,
      (List.range i).foldl
          (fun b j => bubblePass (fun u v => decide (key v < key u)) b (a.length - 1 - j)) a
        = front ++ back ∧
      back.length = i ∧
      back.Pairwise (fun u v => key u ≤ key v) ∧
      (∀ u ∈ front, ∀ v ∈ back, key u ≤ key v) ∧
      (front ++ back).Perm a ∧
      ∀ k, (front ++ back).filter (fun u => decide (key u = k)) =
        a.filter (fun u => decide (key u = k)) := by
  induction i with
  | zero => exact ⟨a, [], by simp, rfl, List.Pairwise.nil, by simp, by simp, by simp⟩
  | succ i ih =>
    obtain ⟨front, back, hfold, hlen, hsorted, hle, hperm, hfilter⟩ := ih (Nat.le_of_succ_le hi)
    have hfl : front.length = a.length - i := by
      have := hperm.length_eq
      simp only [List.length_append] at this
      omega
    cases front with
    | nil => simp at hfl; omega
    | cons x l =>
      have hl : l.length = a.length - 1 - i := by simp at hfl; omega
      have hpass : bubblePass (fun u v => decide (key v < key u)) (x :: l ++ back)
          (a.length - 1 - i) = bubbleFrom (fun u v => decide (key v < key u)) x l ++ back := by
        rw [List.cons_append, bubblePass_eq, ← hl]
        simp
      obtain ⟨front2, m, hm, hm_le⟩ := bubbleFrom_last key x l
      have hpm : (front2 ++ [m]).Perm (x :: l) := hm ▸ bubbleFrom_perm _ x l
      refine ⟨front2, m :: back, ?_, by simp [hlen], ?_, ?_, ?_, ?_⟩
      · rw [List.range_succ, List.foldl_append, hfold]
        simp only [List.foldl_cons, List.foldl_nil]
        rw [hpass, hm]
        simp
      · refine List.Pairwise.cons ?_ hsorted
        intro v hv
        exact hle m (hpm.mem_iff.1 (by simp)) v hv
      · intro u hu v hv
        rcases List.mem_cons.1 hv with rfl | hv
        · exact hm_le u hu
        · exact hle u (hpm.mem_iff.1 (by simp [hu])) v hv
      · have : (front2 ++ m :: back) = (front2 ++ [m]) ++ back := by simp
        rw [this]
        exact (hpm.append_right back).trans hperm
      · intro k
        have : (front2 ++ m :: back) = (front2 ++ [m]) ++ back := by simp
        rw [this, List.filter_append, ← hm, bubbleFrom_filter, ← hfilter k, List.filter_append]

/-- The bubble sort returns a list that is ordered by key. -/
theorem bubbleSort_pairwise (key : α → K) (a : List α) :
    (bubbleSort (fun u v => decide (key v < key u)) a).Pairwise (fun u v => key u ≤ key v) := by
  obtain ⟨front, back, hfold, hlen, hsorted, _, hperm, _⟩ := bubbleRounds_spec key a a.length le_rfl
  have hfl : front = [] := by
    have := hperm.length_eq
    simp only [List.length_append] at this
    exact List.length_eq_zero.1 (by omega)
  unfold bubbleSort
  rw [hfold, hfl]
  simpa using hsorted

/-- The bubble sort permutes its input. -/
theorem bubbleSort_perm (key : α → K) (a : List α) :
    (bubbleSort (fun u v => decide (key v < key u)) a).Perm a := by
  obtain ⟨front, back, hfold, _, _, _, hperm, _⟩ := bubbleRounds_spec key a a.length le_rfl
  unfold bubbleSort
  rw [hfold]
  exact hperm

/-- The bubble sort is stable: the entries of each key keep their relative order. -/
theorem bubbleSort_filter (key : α → K) (k : K) (a : List α) :
    (bubbleSort (fun u v => decide (key v < key u)) a).filter (fun u => decide (key u = k)) =
      a.filter (fun u => decide (key u = k)) := by
  obtain ⟨front, back, hfold, _, _, _, _, hfilter⟩ := bubbleRounds_spec key a a.length le_rfl
  unfold bubbleSort
  rw [hfold]
  exact hfilter k

end KeyedSorting

/-! ## The time index resolves to the last stored point of a time -/

section IndexLemmas

variable {α κ : Type} [DecidableEq κ]

theorem indexFrom_append_singleton (key : α → κ) (i : Nat) (ps : List α) (p : α)
    (m : κ → Option Nat) :
    indexFrom key i (ps ++ [p]) m =
      Function.update (indexFrom key i ps m) (key p) (some (i + ps.length)) := by
  induction ps generalizing i m with
  | nil => simp [indexFrom]
  | cons q ps ih =>
    have : i + 1 + ps.length = i + (ps.length + 1) := by omega
    rw [List.cons_append, indexFrom, indexFrom, ih, List.length_cons, this]

/-- Every index recorded for a list is a position of that list. -/
theorem indexFrom_lt (key : α → κ) (ps : List α) (k : κ) (j : Nat)
    (h : indexFrom key 0 ps (fun _ => none) k = some j) : j < ps.length := by
  induction ps using List.reverseRecOn generalizing j with
  | nil => simp [indexFrom] at h
  | append_singleton ps p ih =>
    rw [indexFrom_append_singleton] at h
    by_cases hk : k = key p
    · subst hk
      simp at h
      simp [← h]
    · rw [Function.update_noteq hk] at h
      have := ih j h
      simp
      omega

/-- The entry found through the index is the last entry of the list with that key. -/
theorem index_lookup_eq_getLast (key : α → κ) (ps : List α) (k : κ) :
    (indexFrom key 0 ps (fun _ => none) k).bind (fun i => ps[i]?) =
      (ps.filter (fun p => decide (key p = k))).getLast? := by
  induction ps using List.reverseRecOn with
  | nil => simp [indexFrom]
  | append_singleton ps p ih =>
    rw [indexFrom_append_singleton, List.filter_append]
    by_cases hk : key p = k
    · subst hk
      simp
    · have hk2 : k ≠ key p := fun h => hk h.symm
      rw [Function.update_noteq hk2]
      simp only [List.filter_cons, hk, decide_False, Bool.false_eq_true, if_false,
        List.filter_nil, List.append_nil, ← ih]
      cases hj : indexFrom key 0 ps (fun _ => none) k with
      | none => rfl
      | some j =>
        have hlt := indexFrom_lt key ps k j hj
        simp [List.getElem?_append_left hlt]

end IndexLemmas

/-! ## Construction and insertion keep the invariants -/

section TrackLemmas

variable {K : Type} [LinearOrder K]

theorem sort_pairwise (pts : List (TrackPoint K)) :
    (_sortTrackPointsByTime pts).Pairwise (fun u v => u.time ≤ v.time) :=
  bubbleSort_pairwise (fun p : TrackPoint K => p.time) pts

theorem sort_perm (pts : List (TrackPoint K)) : (_sortTrackPointsByTime pts).Perm pts :=
  bubbleSort_perm (fun p : TrackPoint K => p.time) pts

theorem sort_filter (pts : List (TrackPoint K)) (t : K) :
    (_sortTrackPointsByTime pts).filter (fun p => decide (p.time = t)) =
      pts.filter (fun p => decide (p.time = t)) :=
  bubbleSort_filter (fun p : TrackPoint K => p.time) t pts

theorem update_invariant (tr : Track K) : tr._update.Invariant := by
  refine ⟨?_, rfl⟩
  show List.Sorted _ (List.map _ (_sortTrackPointsByTime tr._trackPoints))
  exact List.pairwise_map.2 (sort_pairwise tr._trackPoints)

theorem construct_invariant (trackData : List (TrackPoint K)) :
    (Track.construct trackData).Invariant :=
  update_invariant _

theorem addTrackPoint_invariant (tr : Track K) (p : TrackPoint K) :
    (tr._addTrackPoint p).Invariant :=
  update_invariant _

theorem build_invariant (trackData adds : List (TrackPoint K)) :
    (Track.build trackData adds).Invariant := by
  unfold Track.build
  induction adds using List.reverseRecOn with
  | nil => exact construct_invariant trackData
  | append_singleton adds p _ =>
    rw [List.foldl_append]
    exact addTrackPoint_invariant _ p

/-- The storage after a run of single-point adds: a stable rearrangement of what was stored
followed by the added points. -/
theorem foldl_add_storage (tr : Track K) (adds : List (TrackPoint K)) :
    (adds.foldl Track._addTrackPoint tr)._trackPoints.Perm
        (tr._trackPoints ++ adds.map TrackPoint.markOrigin) ∧
      ∀ t, (adds.foldl Track._addTrackPoint tr)._trackPoints.filter
            (fun p => decide (p.time = t)) =
          (tr._trackPoints ++ adds.map TrackPoint.markOrigin).filter
            (fun p => decide (p.time = t)) := by
  induction adds generalizing tr with
  | nil => simp
  | cons p adds ih =>
    obtain ⟨hperm, hfilter⟩ := ih (tr._addTrackPoint p)
    have hs : (tr._addTrackPoint p)._trackPoints =
        _sortTrackPointsByTime (tr._trackPoints ++ [p.markOrigin]) := rfl
    rw [hs] at hperm hfilter
    refine ⟨?_, ?_⟩
    · rw [List.foldl_cons]
      refine hperm.trans ?_
      rw [List.map_cons]
      have := (sort_perm (tr._trackPoints ++ [p.markOrigin])).append_right
        (adds.map TrackPoint.markOrigin)
      simpa using this
    · intro t
      rw [List.foldl_cons, hfilter t, List.filter_append, sort_filter]
      simp only [List.map_cons, List.filter_append, List.append_assoc]
      rw [← List.filter_append, List.singleton_append]

/-- The storage of a built track: a stable rearrangement of the inserted points. -/
theorem build_storage (trackData adds : List (TrackPoint K)) :
    (Track.build trackData adds)._trackPoints.Perm
        ((trackData ++ adds).map TrackPoint.markOrigin) ∧
      ∀ t, (Track.build trackData adds)._trackPoints.filter (fun p => decide (p.time = t)) =
          ((trackData ++ adds).map TrackPoint.markOrigin).filter
            (fun p => decide (p.time = t)) := by
  obtain ⟨hperm, hfilter⟩ := foldl_add_storage (Track.construct trackData) adds
  have hs : (Track.construct trackData)._trackPoints =
      _sortTrackPointsByTime (trackData.map TrackPoint.markOrigin) := rfl
  rw [hs] at hperm hfilter
  refine ⟨?_, ?_⟩
  · refine hperm.trans ?_
    rw [List.map_append]
    exact (sort_perm _).append_right _
  · intro t
    unfold Track.build
    rw [hfilter t, List.filter_append, sort_filter, List.map_append, List.filter_append]

/-- Exact lookup on a consistent track: the last stored point of that time. -/
theorem getTrackPointByTime_eq_getLast (tr : Track K) (h : tr.Invariant) (t : K) :
    tr.getTrackPointByTime t =
      (tr._trackPoints.filter (fun p => decide (p.time = t))).getLast? := by
  unfold Track.getTrackPointByTime
  rw [h.2]
  exact index_lookup_eq_getLast (fun p => p.time) tr._trackPoints t

end TrackLemmas

/-! ## The binary search -/

section BracketLemmas

variable {K : Type} [LinearOrder K]

/-- The loop ends, within `right - left - 1` rounds, on two neighbouring indices: the left
one is the initial one or has a time before `time`, the right one is the initial one or
has a time not before `time`. -/
theorem bracketLoop_spec (times : List K) (time : K) (fuel left right : Nat)
    (hlr : left < right) (hr : right < times.length) (hfuel : right - left ≤ fuel + 1) :
    ∃ l, bracketLoop times time fuel left right = some (l, l + 1) ∧
      left ≤ l ∧ l + 1 ≤ right ∧
      (l = left ∨ ∃ x, times[l]? = some x ∧ x < time) ∧
      (l + 1 = right ∨ ∃ x, times[l + 1]? = some x ∧ ¬ x < time) := by
  induction fuel generalizing left right with
  | zero =>
    have h1 : right - left = 1 := by omega
    refine ⟨left, ?_, le_rfl, by omega, Or.inl rfl, Or.inl (by omega)⟩
    unfold bracketLoop
    rw [if_pos h1]
    congr 2
    omega
  | succ fuel ih =>
    by_cases h1 : right - left = 1
    · refine ⟨left, ?_, le_rfl, by omega, Or.inl rfl, Or.inl (by omega)⟩
      unfold bracketLoop
      rw [if_pos h1]
      congr 2
      omega
    · have hn1 : left < (left + right) / 2 := by omega
      have hn2 : (left + right) / 2 < right := by omega
      have hn3 : (left + right) / 2 < times.length := by omega
      unfold bracketLoop
      rw [if_neg h1]
      simp only [List.getElem?_eq_getElem hn3]
      by_cases hcmp : times[(left + right) / 2] < time
      · rw [if_pos hcmp]
        obtain ⟨l, hl, h2, h3, h4, h5⟩ := ih ((left + right) / 2) right hn2 hr (by omega)
        refine ⟨l, hl, by omega, h3, Or.inr ?_, h5⟩
        rcases h4 with h4 | h4
        · subst h4
          exact ⟨_, List.getElem?_eq_getElem hn3, hcmp⟩
        · exact h4
      · rw [if_neg hcmp]
        obtain ⟨l, hl, h2, h3, h4, h5⟩ := ih left ((left + right) / 2) hn1 hn3 (by omega)
        refine ⟨l, hl, h2, by omega, h4, Or.inr ?_⟩
        rcases h5 with h5 | h5
        · rw [h5]
          exact ⟨_, List.getElem?_eq_getElem hn3, hcmp⟩
        · exact h5

end BracketLemmas

/-! ## The interpolation step on a consistent track -/

section QueryLemmas

variable {K : Type}

theorem sorted_getElem?_le [LinearOrder K] (times : List K)
    (hs : times.Sorted (fun a b => a ≤ b)) (i j : Nat) (hij : i ≤ j) (x y : K)
    (hx : times[i]? = some x) (hy : times[j]? = some y) : x ≤ y := by
  obtain ⟨hi, rfl⟩ := List.getElem?_eq_some.1 hx
  obtain ⟨hj, rfl⟩ := List.getElem?_eq_some.1 hy
  rcases Nat.eq_or_lt_of_le hij with h | h
  · subst h; exact le_rfl
  · exact (List.pairwise_iff_getElem.1 hs) i j hi hj h

theorem getTimes_getElem? (tr : Track K) (i : Nat) :
    tr.getTimes[i]? = (tr._trackPoints[i]?).map (fun p => p.time) := by
  simp [Track.getTimes]

theorem getTrackPointByTime_mem [LinearOrder K] (tr : Track K) (h : tr.Invariant) (t : K)
    (p : TrackPoint K) (hp : tr.getTrackPointByTime t = some p) :
    p ∈ tr._trackPoints ∧ p.time = t := by
  rw [getTrackPointByTime_eq_getLast tr h] at hp
  simpa using List.mem_filter.1 (List.mem_of_getLast?_eq_some hp)

theorem getTrackPointByTime_of_mem [LinearOrder K] (tr : Track K) (h : tr.Invariant)
    (q : TrackPoint K) (hq : q ∈ tr._trackPoints) :
    ∃ p, tr.getTrackPointByTime q.time = some p ∧ p ∈ tr._trackPoints ∧ p.time = q.time := by
  have hne : tr._trackPoints.filter (fun p => decide (p.time = q.time)) ≠ [] :=
    List.ne_nil_of_mem (List.mem_filter.2 ⟨hq, by simp⟩)
  have hget : tr.getTrackPointByTime q.time = some (List.getLast _ hne) := by
    rw [getTrackPointByTime_eq_getLast tr h]
    exact List.getLast?_eq_getLast _ hne
  exact ⟨_, hget, getTrackPointByTime_mem tr h _ _ hget⟩

theorem getTrackPointByTime_eq_none [LinearOrder K] (tr : Track K) (h : tr.Invariant) (t : K)
    (hno : ∀ q ∈ tr._trackPoints, q.time ≠ t) : tr.getTrackPointByTime t = none := by
  rw [getTrackPointByTime_eq_getLast tr h]
  have : tr._trackPoints.filter (fun p => decide (p.time = t)) = [] := by
    rw [List.filter_eq_nil_iff]
    intro p hp hpt
    exact hno p hp (by simpa using hpt)
  rw [this]
  rfl

/-- The stored time at a position of the storage is addressable. -/
theorem getTrackPointByTime_at [LinearOrder K] (tr : Track K) (h : tr.Invariant) (i : Nat)
    (t : K) (ht : tr.getTimes[i]? = some t) :
    ∃ p, tr.getTrackPointByTime t = some p ∧ p ∈ tr._trackPoints ∧ p.time = t := by
  rw [getTimes_getElem?] at ht
  cases hq : tr._trackPoints[i]? with
  | none => simp [hq] at ht
  | some q =>
    simp [hq] at ht
    subst ht
    exact getTrackPointByTime_of_mem tr h q (List.getElem?_mem hq)

/-- With at least two stored points and a query time inside the bounds, the call runs the
binary search to two neighbouring stored times around the query time and interpolates
between the points addressed at them. -/
theorem calculate_bracket_search [LinearOrderedField K] (M : JSMath K) (tr : Track K)
    (h : tr.Invariant) (time : K) (hlen : 2 ≤ tr._trackPoints.length) (s e : TrackPoint K)
    (hs : tr._trackPoints[0]? = some s)
    (he : tr._trackPoints[tr._trackPoints.length - 1]? = some e)
    (h1 : s.time ≤ time) (h2 : time ≤ e.time) :
    ∃ l t0 t1 p0 p1,
      bracketLoop tr.getTimes time tr.getTimes.length 0 (tr.getTimes.length - 1) =
        some (l, l + 1) ∧
      tr.getTimes[l]? = some t0 ∧ tr.getTimes[l + 1]? = some t1 ∧
      (l = 0 ∨ t0 < time) ∧ t0 ≤ time ∧ time ≤ t1 ∧
      tr.getTrackPointByTime t0 = some p0 ∧ tr.getTrackPointByTime t1 = some p1 ∧
      p0.time = t0 ∧ p1.time = t1 ∧
      tr._getCalculateTrackPointByTime M time =
        .ok (tr.interpolate M time (tr.getTrackPointByTime time) p0 p1 t0 t1) := by
  have hlen2 : tr.getTimes.length = tr._trackPoints.length := by simp [Track.getTimes]
  obtain ⟨l, hloop, _, hl2, hleft, hright⟩ :=
    bracketLoop_spec tr.getTimes time tr.getTimes.length 0 (tr.getTimes.length - 1)
      (by omega) (by omega) (by omega)
  have hl : l < tr.getTimes.length := by omega
  have hl1 : l + 1 < tr.getTimes.length := by omega
  have ht0 : tr.getTimes[l]? = some tr.getTimes[l] := List.getElem?_eq_getElem hl
  have ht1 : tr.getTimes[l + 1]? = some tr.getTimes[l + 1] := List.getElem?_eq_getElem hl1
  have hs2 : tr.getTimes[0]? = some s.time := by rw [getTimes_getElem?, hs]; rfl
  have he2 : tr.getTimes[tr.getTimes.length - 1]? = some e.time := by
    rw [getTimes_getElem?, hlen2, he]; rfl
  obtain ⟨p0, hp0, _, hp0t⟩ := getTrackPointByTime_at tr h l _ ht0
  obtain ⟨p1, hp1, _, hp1t⟩ := getTrackPointByTime_at tr h (l + 1) _ ht1
  have hleft2 : l = 0 ∨ tr.getTimes[l] < time := by
    rcases hleft with hl0 | ⟨x, hx, hxt⟩
    · exact Or.inl hl0
    · rw [ht0] at hx
      exact Or.inr (by rw [Option.some.inj hx]; exact hxt)
  have hle0 : tr.getTimes[l] ≤ time := by
    rcases hleft2 with hl0 | hlt
    · exact le_trans (sorted_getElem?_le _ h.1 l 0 (by omega) _ _ ht0 hs2) h1
    · exact le_of_lt hlt
  have hle1 : time ≤ tr.getTimes[l + 1] := by
    rcases hright with hr | ⟨x, hx, hxt⟩
    · rw [← hr] at he2
      rw [ht1] at he2
      rw [Option.some.inj he2]
      exact h2
    · rw [ht1] at hx
      rw [Option.some.inj hx]
      exact not_lt.1 hxt
  refine ⟨l, _, _, p0, p1, hloop, ht0, ht1, hleft2, hle0, hle1, hp0, hp1, hp0t, hp1t, ?_⟩
  have hne : tr._trackPoints.length ≠ 0 := by omega
  have hcond : ¬ (time < s.time ∨ e.time < time) := by
    rintro (hc | hc)
    · exact absurd h1 (not_le.2 hc)
    · exact absurd h2 (not_le.2 hc)
  have hne1 : ¬ (0 = tr.getTimes.length - 1) := by omega
  unfold Track._getCalculateTrackPointByTime
  simp only [Track.getStartTrackPoint, Track.getEndTrackPoint, hs, he, if_neg hne, deref,
    bind, Except.bind, pure, Except.pure, if_neg hcond, if_neg hne1, hloop, ht0, ht1, hp0, hp1]

/-- With at least two stored points and a query time inside the bounds, the call finds two
neighbouring stored times around the query time and interpolates between the points
addressed at them. -/
theorem calculate_bracket [LinearOrderedField K] (M : JSMath K) (tr : Track K)
    (h : tr.Invariant) (time : K) (hlen : 2 ≤ tr._trackPoints.length) (s e : TrackPoint K)
    (hs : tr._trackPoints[0]? = some s)
    (he : tr._trackPoints[tr._trackPoints.length - 1]? = some e)
    (h1 : s.time ≤ time) (h2 : time ≤ e.time) :
    ∃ l t0 t1 p0 p1,
      tr.getTimes[l]? = some t0 ∧ tr.getTimes[l + 1]? = some t1 ∧
      (l = 0 ∨ t0 < time) ∧ t0 ≤ time ∧ time ≤ t1 ∧
      tr.getTrackPointByTime t0 = some p0 ∧ tr.getTrackPointByTime t1 = some p1 ∧
      p0.time = t0 ∧ p1.time = t1 ∧
      tr._getCalculateTrackPointByTime M time =
        .ok (tr.interpolate M time (tr.getTrackPointByTime time) p0 p1 t0 t1) := by
  obtain ⟨l, t0, t1, p0, p1, _, hrest⟩ :=
    calculate_bracket_search M tr h time hlen s e hs he h1 h2
  exact ⟨l, t0, t1, p0, p1, hrest⟩

end QueryLemmas

section BoundsLemmas

variable {K : Type}

theorem getStartTrackPoint_ok_iff (tr : Track K) (s : TrackPoint K) :
    tr.getStartTrackPoint = .ok (some s) ↔ tr._trackPoints[0]? = some s := by
  simp [Track.getStartTrackPoint]

theorem getEndTrackPoint_ok_iff (tr : Track K) (e : TrackPoint K) :
    tr.getEndTrackPoint = .ok (some e) ↔
      tr._trackPoints.length ≠ 0 ∧ tr._trackPoints[tr._trackPoints.length - 1]? = some e := by
  unfold Track.getEndTrackPoint
  by_cases h : tr._trackPoints.length = 0
  · simp [h]
  · simp [h]

/-- The first stored point is not after any stored point, the last one not before. -/
theorem bounds_le [LinearOrder K] (tr : Track K) (h : tr.Invariant) (s e : TrackPoint K)
    (hs : tr._trackPoints[0]? = some s)
    (he : tr._trackPoints[tr._trackPoints.length - 1]? = some e)
    (p : TrackPoint K) (hp : p ∈ tr._trackPoints) : s.time ≤ p.time ∧ p.time ≤ e.time := by
  obtain ⟨i, hi, rfl⟩ := List.getElem_of_mem hp
  have hlen : tr.getTimes.length = tr._trackPoints.length := by simp [Track.getTimes]
  have hs2 : tr.getTimes[0]? = some s.time := by rw [getTimes_getElem?, hs]; rfl
  have he2 : tr.getTimes[tr._trackPoints.length - 1]? = some e.time := by
    rw [getTimes_getElem?, he]; rfl
  have hi2 : tr.getTimes[i]? = some (tr._trackPoints[i]).time := by
    rw [getTimes_getElem?, List.getElem?_eq_getElem hi]; rfl
  exact ⟨sorted_getElem?_le _ h.1 0 i (by omega) _ _ hs2 hi2,
    sorted_getElem?_le _ h.1 i _ (by omega) _ _ hi2 he2⟩

/-- The result of the second half of the interpolation step: always a point, which is `p1`
or a point of the query time. -/
theorem interpolate_tail [LinearOrderedField K] (M : JSMath K) (tr : Track K) (time : K)
    (endpoint : Option (TrackPoint K)) (p0 p1 : TrackPoint K) (t0 t1 : K)
    (hend : ∀ ep, endpoint = some ep → ep.time = time) :
    ∃ tail tr2, tr.interpolate M time endpoint p0 p1 t0 t1 = (some tail, tr2) ∧
      (tail = p1 ∨ tail.time = time) := by
  unfold Track.interpolate
  by_cases hs : distanceTo M (p0.lng, p0.lat) (p1.lng, p1.lat) ≤ 0
  · simp only [if_pos hs]
    exact ⟨p1, tr, rfl, Or.inl rfl⟩
  · simp only [if_neg hs]
    cases endpoint with
    | none => exact ⟨_, _, rfl, Or.inr rfl⟩
    | some ep =>
      refine ⟨_, _, rfl, Or.inr ?_⟩
      have := hend ep rfl
      split <;> split <;> simpa using this

end BoundsLemmas

section SegmentLemmas

variable {K : Type} [LinearOrderedField K]

/-- On a consistent track, a query time strictly between two neighbouring stored times is
not a stored time, and the call interpolates between the points addressed at those two
times. -/
theorem calculate_between (M : JSMath K) (tr : Track K) (h : tr.Invariant) (i : Nat)
    (t0 t1 t : K) (p0 p1 : TrackPoint K)
    (ht0 : tr.getTimes[i]? = some t0) (ht1 : tr.getTimes[i + 1]? = some t1)
    (hlt0 : t0 < t) (hlt1 : t < t1)
    (hp0 : tr.getTrackPointByTime t0 = some p0) (hp1 : tr.getTrackPointByTime t1 = some p1) :
    tr.getTrackPointByTime t = none ∧
      tr._getCalculateTrackPointByTime M t = .ok (tr.interpolate M t none p0 p1 t0 t1) := by
  have hlenT : tr.getTimes.length = tr._trackPoints.length := by simp [Track.getTimes]
  have hi1 : i + 1 < tr.getTimes.length := (List.getElem?_eq_some.1 ht1).1
  have hnone : tr.getTrackPointByTime t = none := by
    apply getTrackPointByTime_eq_none tr h
    intro q hq hqt
    obtain ⟨j, hj, rfl⟩ := List.getElem_of_mem hq
    have hjt : tr.getTimes[j]? = some t := by
      rw [getTimes_getElem?, List.getElem?_eq_getElem hj, ← hqt]; rfl
    rcases Nat.lt_or_ge i j with hij | hij
    · exact absurd (sorted_getElem?_le _ h.1 (i + 1) j hij _ _ ht1 hjt) (not_le.2 hlt1)
    · exact absurd (sorted_getElem?_le _ h.1 j i hij _ _ hjt ht0) (not_le.2 hlt0)
  refine ⟨hnone, ?_⟩
  have hs : tr._trackPoints[0]? = some tr._trackPoints[0] :=
    List.getElem?_eq_getElem (by omega)
  have he : tr._trackPoints[tr._trackPoints.length - 1]? =
      some tr._trackPoints[tr._trackPoints.length - 1] :=
    List.getElem?_eq_getElem (by omega)
  have hs2 : tr.getTimes[0]? = some (tr._trackPoints[0]).time := by
    rw [getTimes_getElem?, hs]; rfl
  have he2 : tr.getTimes[tr._trackPoints.length - 1]? =
      some (tr._trackPoints[tr._trackPoints.length - 1]).time := by
    rw [getTimes_getElem?, he]; rfl
  have h1 : (tr._trackPoints[0]).time ≤ t :=
    le_trans (sorted_getElem?_le _ h.1 0 i (by omega) _ _ hs2 ht0) (le_of_lt hlt0)
  have h2 : t ≤ (tr._trackPoints[tr._trackPoints.length - 1]).time :=
    le_trans (le_of_lt hlt1) (sorted_getElem?_le _ h.1 (i + 1) _ (by omega) _ _ ht1 he2)
  obtain ⟨l, u0, u1, q0, q1, hu0, hu1, _, hle0, hle1, hq0, hq1, _, _, hcalc⟩ :=
    calculate_bracket M tr h t (by omega) _ _ hs he h1 h2
  have hli : l = i := by
    rcases Nat.lt_trichotomy l i with hlt | heq | hgt
    · have := sorted_getElem?_le _ h.1 (l + 1) i hlt _ _ hu1 ht0
      exact absurd (le_trans hle1 this) (not_le.2 hlt0)
    · exact heq
    · have := sorted_getElem?_le _ h.1 (i + 1) l hgt _ _ ht1 hu0
      exact absurd (le_trans this hle0) (not_le.2 hlt1)
  subst hli
  have e0 : u0 = t0 := Option.some.inj (hu0.symm.trans ht0)
  have e1 : u1 = t1 := Option.some.inj (hu1.symm.trans ht1)
  subst e0 e1
  have e2 : q0 = p0 := Option.some.inj (hq0.symm.trans hp0)
  have e3 : q1 = p1 := Option.some.inj (hq1.symm.trans hp1)
  subst e2 e3
  rw [hcalc, hnone]

/-- The point made for a query time that is not a stored time, between two points at
distinct positions: its fields. -/
theorem interpolate_none_pos (M : JSMath K) (tr : Track K) (t : K) (p0 p1 : TrackPoint K)
    (t0 t1 : K) (hs : 0 < distanceTo M (p0.lng, p0.lat) (p1.lng, p1.lat)) (hlt : t0 < t1) :
    ∃ tail, tr.interpolate M t none p0 p1 t0 t1 = (some tail, tr) ∧
      tail.time = t ∧ tail.isOrigin = false ∧
      tail.lng = p0.lng + (p1.lng - p0.lng) * (t - t0) / (t1 - t0) ∧
      tail.lat = p0.lat + (p1.lat - p0.lat) * (t - t0) / (t1 - t0) ∧
      ∀ r0 r1, p0.radius = .num r0 → p1.radius = .num r1 →
        tail.radius = .num (r0 + (r1 - r0) * (t - t0) / (t1 - t0)) := by
  have hs0 : distanceTo M (p0.lng, p0.lat) (p1.lng, p1.lat) ≠ 0 := ne_of_gt hs
  have hd : t1 - t0 ≠ 0 := sub_ne_zero.2 (ne_of_gt hlt)
  unfold Track.interpolate
  simp only [if_neg (not_le.2 hs)]
  refine ⟨_, rfl, rfl, rfl, ?_, ?_, ?_⟩
  · show p0.lng + _ = _
    field_simp
    ring
  · show p0.lat + _ = _
    field_simp
    ring
  · intro r0 r1 h0 h1
    show JSVal.arith _ _ _ = _
    rw [h0, h1]
    simp only [JSVal.arith]
    congr 1
    field_simp

end SegmentLemmas

section SampleLemmas

theorem ratMath_sqrt_zero : ratMath.sqrt 0 = 0 := by
  have := Rat.sqrt_eq 0
  simp only [mul_zero, abs_zero] at this
  exact this

theorem ratMath_sqrt_hundred : ratMath.sqrt 100 = 10 := by
  have := Rat.sqrt_eq 10
  rw [abs_of_nonneg (by norm_num)] at this
  rw [← this]
  norm_num [ratMath]

theorem scenarioTrack_eq : scenarioTrack =
    { _trackPoints := [(samplePoint 0 0 0 (.num 10)).markOrigin,
        (samplePoint 10 0 10 (.num 20)).markOrigin],
      _timeTick := _updatetimeTick [(samplePoint 0 0 0 (.num 10)).markOrigin,
        (samplePoint 10 0 10 (.num 20)).markOrigin] } := rfl

theorem restingTrack_eq : restingTrack =
    { _trackPoints := [(samplePoint 0 0 0 (.num 10)).markOrigin,
        (samplePoint 10 0 0 (.num 20)).markOrigin],
      _timeTick := _updatetimeTick [(samplePoint 0 0 0 (.num 10)).markOrigin,
        (samplePoint 10 0 0 (.num 20)).markOrigin] } := rfl

end SampleLemmas

section ExactHitLemmas

variable {K : Type}

/-- With coincident bracketing points the second half returns `p1` and writes nothing. -/
theorem interpolate_of_le [LinearOrderedField K] (M : JSMath K) (tr : Track K) (t : K)
    (endpoint : Option (TrackPoint K)) (p0 p1 : TrackPoint K) (t0 t1 : K)
    (hs : distanceTo M (p0.lng, p0.lat) (p1.lng, p1.lat) ≤ 0) :
    tr.interpolate M t endpoint p0 p1 t0 t1 = (some p1, tr) := by
  unfold Track.interpolate
  simp only [if_pos hs]

/-- With bracketing points at distinct positions and a stored point at the query time, the
second half returns that point with `dir` and `radius` filled in where they were
`undefined`, and writes it back. -/
theorem interpolate_some_pos [LinearOrderedField K] (M : JSMath K) (tr : Track K) (t : K)
    (ep p0 p1 : TrackPoint K) (t0 t1 : K)
    (hs : ¬ distanceTo M (p0.lng, p0.lat) (p1.lng, p1.lat) ≤ 0) :
    ∃ tail, tr.interpolate M t (some ep) p0 p1 t0 t1 = (some tail, tr.writeBack t tail) ∧
      tail.time = ep.time ∧ tail.lat = ep.lat ∧ tail.lng = ep.lng ∧
      tail.isOrigin = ep.isOrigin ∧ tail.info = ep.info ∧
      (ep.dir ≠ .undefined → tail.dir = ep.dir) ∧
      (ep.radius ≠ .undefined → tail.radius = ep.radius) ∧
      (ep.dir = .undefined → tail.dir = .num (heading M (p0.lng, p0.lat) (p1.lng, p1.lat)
        ((p1.lat - p0.lat) / distanceTo M (p0.lng, p0.lat) (p1.lng, p1.lat)))) ∧
      (ep.radius = .undefined → tail.radius ≠ .undefined) ∧
      (ep.radius = .undefined → p0.radius = .undefined ∨ p1.radius = .undefined →
        tail.radius = .nan) := by
  have hnan : p0.radius = .undefined ∨ p1.radius = .undefined →
      JSVal.arith (fun a b => a + b) p0.radius
        (JSVal.arith (fun a b => a * b)
          (JSVal.arith (fun a b => a / b)
            (JSVal.arith (fun a b => a - b) p1.radius p0.radius) (JSVal.num (t1 - t0)))
          (JSVal.num (t - t0))) = .nan := by
    rintro (h0 | h1)
    · rw [h0]; rfl
    · rw [h1]; cases p0.radius <;> rfl
  have hdef : JSVal.arith (fun a b => a + b) p0.radius
        (JSVal.arith (fun a b => a * b)
          (JSVal.arith (fun a b => a / b)
            (JSVal.arith (fun a b => a - b) p1.radius p0.radius) (JSVal.num (t1 - t0)))
          (JSVal.num (t - t0))) ≠ .undefined := by
    generalize JSVal.arith (fun a b => a * b)
      (JSVal.arith (fun a b => a / b)
        (JSVal.arith (fun a b => a - b) p1.radius p0.radius) (JSVal.num (t1 - t0)))
      (JSVal.num (t - t0)) = r
    cases p0.radius <;> cases r <;> simp [JSVal.arith]
  unfold Track.interpolate
  simp only [if_neg hs]
  refine ⟨_, rfl, ?_⟩
  by_cases hd : ep.dir = .undefined <;> by_cases hr : ep.radius = .undefined <;>
    simp [hd, hr, hdef]
  all_goals exact hnan

theorem writeBack_self (tr : Track K) (t : K) (ep : TrackPoint K)
    (hep : tr.getTrackPointByTime t = some ep) : tr.writeBack t ep = tr := by
  unfold Track.getTrackPointByTime at hep
  unfold Track.writeBack
  cases hti : tr._timeTick t with
  | none => rfl
  | some i =>
    rw [hti] at hep
    have hi : tr._trackPoints[i]? = some ep := hep
    have : tr._trackPoints.set i ep = tr._trackPoints := by
      apply List.ext_getElem?
      intro j
      by_cases hj : i = j
      · subst hj
        rw [List.getElem?_set, if_pos rfl]
        obtain ⟨hlt, _⟩ := List.getElem?_eq_some.1 hi
        simp [hlt, hi]
      · rw [List.getElem?_set_ne hj]
    simp only [this]

theorem writeBack_timeTick (tr : Track K) (t : K) (ep : TrackPoint K) :
    (tr.writeBack t ep)._timeTick = tr._timeTick := by
  unfold Track.writeBack
  cases tr._timeTick t <;> rfl

theorem writeBack_getElem?_ne (tr : Track K) (t : K) (ep : TrackPoint K) (j : Nat)
    (hj : tr._timeTick t ≠ some j) :
    (tr.writeBack t ep)._trackPoints[j]? = tr._trackPoints[j]? := by
  unfold Track.writeBack
  cases hti : tr._timeTick t with
  | none => rfl
  | some i =>
    have hij : i ≠ j := fun hij => hj (by rw [hti, hij])
    exact List.getElem?_set_ne hij

end ExactHitLemmas

section RawLemmas

variable {α : Type}

theorem swapAdjacent_nil (gt : α → α → Bool) (j : Nat) : swapAdjacent gt [] j = [] := by
  simp [swapAdjacent]

theorem bubblePass_nil (gt : α → α → Bool) (b : Nat) : bubblePass gt [] b = [] := by
  unfold bubblePass
  induction b with
  | zero => rfl
  | succ b ih => rw [List.range_succ, List.foldl_append, ih]; simp [swapAdjacent_nil]

/-- A pass permutes the list, whatever the comparison. -/
theorem bubblePass_perm (gt : α → α → Bool) (a : List α) (b : Nat) :
    (bubblePass gt a b).Perm a := by
  cases a with
  | nil => rw [bubblePass_nil]
  | cons x l =>
    rw [bubblePass_eq]
    have h1 := (bubbleFrom_perm gt x (l.take b)).append_right (l.drop b)
    simpa using h1

theorem foldl_bubblePass_perm (gt : α → α → Bool) (bounds : List Nat) (f : Nat → Nat)
    (a : List α) : (bounds.foldl (fun b i => bubblePass gt b (f i)) a).Perm a := by
  induction bounds generalizing a with
  | nil => exact List.Perm.refl _
  | cons i bounds ih =>
    rw [List.foldl_cons]
    exact (ih _).trans (bubblePass_perm gt a (f i))

/-- The bubble sort permutes the list, whatever the comparison. -/
theorem bubbleSort_perm_any (gt : α → α → Bool) (a : List α) : (bubbleSort gt a).Perm a :=
  foldl_bubblePass_perm gt (List.range a.length) (fun i => a.length - 1 - i) a

theorem raw_addTrackPoint_perm {K : Type} [LinearOrder K] (tr : RawTrack K) (x : Item K) :
    (tr._addTrackPoint x)._trackPoints.Perm (tr._trackPoints ++ [x.markOrigin]) :=
  bubbleSort_perm_any itemGt _

theorem raw_foldl_add_length {K : Type} [LinearOrder K] (tr : RawTrack K)
    (ps : List (TrackPoint K)) :
    (ps.foldl (fun tr p => tr._addTrackPoint (.point p)) tr)._trackPoints.length =
      tr._trackPoints.length + ps.length := by
  induction ps generalizing tr with
  | nil => rfl
  | cons p ps ih =>
    rw [List.foldl_cons, ih, (raw_addTrackPoint_perm tr (.point p)).length_eq]
    simp
    omega

end RawLemmas

section SampleHitLemmas

theorem ratMath_asin (x : ℚ) : ratMath.asin x = x * (355 / 113) / 2 := rfl

theorem ratMath_pi : ratMath.pi = 355 / 113 := rfl

/-- On the scenario track the call for time 10 interpolates between its two points, with
the second one as the stored point of the query time. -/
theorem scenario_calculate_at_end :
    scenarioTrack._getCalculateTrackPointByTime ratMath 10 =
      .ok (scenarioTrack.interpolate ratMath 10
        (some (samplePoint 10 0 10 (.num 20)).markOrigin)
        (samplePoint 0 0 0 (.num 10)).markOrigin (samplePoint 10 0 10 (.num 20)).markOrigin
        0 10) := by
  obtain ⟨l, u0, u1, q0, q1, hu0, hu1, _, _, _, hq0, hq1, _, _, hcalc⟩ :=
    calculate_bracket ratMath scenarioTrack (construct_invariant _) 10 (by decide)
      (samplePoint 0 0 0 (.num 10)).markOrigin (samplePoint 10 0 10 (.num 20)).markOrigin
      rfl rfl (by norm_num [samplePoint, TrackPoint.markOrigin])
      (by norm_num [samplePoint, TrackPoint.markOrigin])
  have hlen : scenarioTrack.getTimes.length = 2 := rfl
  have hl : l = 0 := by
    have := (List.getElem?_eq_some.1 hu1).1
    omega
  subst hl
  have e0 : u0 = 0 := (Option.some.inj hu0).symm
  have e1 : u1 = 10 := (Option.some.inj hu1).symm
  subst e0 e1
  have e2 : q0 = (samplePoint 0 0 0 (.num 10)).markOrigin := (Option.some.inj hq0).symm
  have e3 : q1 = (samplePoint 10 0 10 (.num 20)).markOrigin := (Option.some.inj hq1).symm
  subst e2 e3
  rw [hcalc]
  rfl

end SampleHitLemmas

/-! ## The track of points inside the track of items -/

section Coherence

variable {α β : Type}

theorem swapAdjacent_map (f : α → β) (gt : α → α → Bool) (gt2 : β → β → Bool)
    (hg : ∀ a b, gt2 (f a) (f b) = gt a b) (l : List α) (j : Nat) :
    swapAdjacent gt2 (l.map f) j = (swapAdjacent gt l j).map f := by
  unfold swapAdjacent
  simp only [List.getElem?_map]
  cases h1 : l[j]? <;> cases h2 : l[j + 1]? <;> simp
  rw [hg]
  split <;> simp [List.map_set]

theorem bubblePass_map (f : α → β) (gt : α → α → Bool) (gt2 : β → β → Bool)
    (hg : ∀ a b, gt2 (f a) (f b) = gt a b) (l : List α) (b : Nat) :
    bubblePass gt2 (l.map f) b = (bubblePass gt l b).map f := by
  unfold bubblePass
  induction b with
  | zero => rfl
  | succ b ih =>
    rw [List.range_succ, List.foldl_append, List.foldl_append, ih]
    simp [swapAdjacent_map f gt gt2 hg]

theorem foldl_bubblePass_map (f : α → β) (gt : α → α → Bool) (gt2 : β → β → Bool)
    (hg : ∀ a b, gt2 (f a) (f b) = gt a b) (bounds : List Nat) (g : Nat → Nat)
    (l : List α) :
    bounds.foldl (fun b i => bubblePass gt2 b (g i)) (l.map f) =
      (bounds.foldl (fun b i => bubblePass gt b (g i)) l).map f := by
  induction bounds generalizing l with
  | nil => rfl
  | cons i bounds ih =>
    rw [List.foldl_cons, List.foldl_cons, bubblePass_map f gt gt2 hg, ih]

/-- The bubble sort commutes with a map that respects the comparison. -/
theorem bubbleSort_map (f : α → β) (gt : α → α → Bool) (gt2 : β → β → Bool)
    (hg : ∀ a b, gt2 (f a) (f b) = gt a b) (l : List α) :
    bubbleSort gt2 (l.map f) = (bubbleSort gt l).map f := by
  unfold bubbleSort
  rw [List.length_map]
  exact foldl_bubblePass_map f gt gt2 hg _ _ l

theorem indexFrom_point {K : Type} [DecidableEq K] (i : Nat) (l : List (TrackPoint K))
    (m : K → Option Nat) (m2 : Option K → Option Nat)
    (hm : ∀ t, m2 (some t) = m t) (hn : m2 none = none) :
    (∀ t, indexFrom Item.time i (l.map Item.point) m2 (some t) =
        indexFrom (fun p => p.time) i l m t) ∧
      indexFrom Item.time i (l.map Item.point) m2 none = none := by
  induction l generalizing i m m2 with
  | nil => exact ⟨hm, hn⟩
  | cons p l ih =>
    simp only [List.map_cons, indexFrom]
    apply ih
    · intro t
      simp only [Item.time]
      by_cases ht : t = p.time
      · subst ht; simp
      · rw [Function.update_noteq ht, Function.update_noteq (by simpa using ht), hm]
    · simp only [Item.time]
      rw [Function.update_noteq (by simp), hn]

/-- Adding a single point to a track of points is `addTrackPoint` on the same track seen as
a track of items. -/
theorem toRaw_addTrackPoint {K : Type} [LinearOrder K] (tr : Track K) (p : TrackPoint K) :
    (tr._addTrackPoint p).toRaw = tr.toRaw.addTrackPoint (.point p) := by
  have hsort : bubbleSort itemGt ((tr._trackPoints ++ [p.markOrigin]).map Item.point) =
      (bubbleSort timeGt (tr._trackPoints ++ [p.markOrigin])).map Item.point :=
    bubbleSort_map Item.point timeGt itemGt (fun a b => rfl) _
  have hidx := indexFrom_point 0 (bubbleSort timeGt (tr._trackPoints ++ [p.markOrigin]))
    (fun _ => none) (fun _ => none) (fun _ => rfl) rfl
  unfold RawTrack.addTrackPoint RawTrack._addTrackPoint RawTrack._update Track.toRaw
    Track._addTrackPoint Track._update _sortTrackPointsByTime _updatetimeTick
  simp only [Item.markOrigin, List.map_append, List.map_cons, List.map_nil]
  simp only [List.map_append, List.map_cons, List.map_nil] at hsort
  rw [hsort]
  congr 1
  funext k
  cases k with
  | none => exact hidx.2.symm
  | some t => exact (hidx.1 t).symm

end Coherence

/-! ## The bracket of the binary search and completion of the query -/

section CompletionLemmas

variable {K : Type}

/-- The binary search of a track with at least two points, run on as many rounds as there
are stored times: it ends on two neighbouring positions whose times exist; the left one is
position 0 or has a time before the query time, the right one is the last position or has
a time not before the query time. -/
theorem bracket_of_track [LinearOrder K] (tr : Track K) (q : K)
    (hlen : 2 ≤ tr._trackPoints.length) :
    ∃ l t0 t1,
      bracketLoop tr.getTimes q tr.getTimes.length 0 (tr.getTimes.length - 1) =
        some (l, l + 1) ∧
      tr.getTimes[l]? = some t0 ∧ tr.getTimes[l + 1]? = some t1 ∧
      (l = 0 ∨ t0 < q) ∧ (l + 1 = tr.getTimes.length - 1 ∨ q ≤ t1) := by
  have hlen2 : tr.getTimes.length = tr._trackPoints.length := by simp [Track.getTimes]
  obtain ⟨l, hloop, _, hl2, hleft, hright⟩ :=
    bracketLoop_spec tr.getTimes q tr.getTimes.length 0 (tr.getTimes.length - 1)
      (by omega) (by omega) (by omega)
  have hl : l < tr.getTimes.length := by omega
  have hl1 : l + 1 < tr.getTimes.length := by omega
  have ht0 : tr.getTimes[l]? = some tr.getTimes[l] := List.getElem?_eq_getElem hl
  have ht1 : tr.getTimes[l + 1]? = some tr.getTimes[l + 1] := List.getElem?_eq_getElem hl1
  refine ⟨l, _, _, hloop, ht0, ht1, ?_, ?_⟩
  · rcases hleft with hl0 | ⟨x, hx, hxt⟩
    · exact Or.inl hl0
    · rw [ht0] at hx
      exact Or.inr (by rw [Option.some.inj hx]; exact hxt)
  · rcases hright with hr | ⟨x, hx, hxt⟩
    · exact Or.inl hr
    · rw [ht1] at hx
      exact Or.inr (by rw [Option.some.inj hx]; exact not_lt.1 hxt)

/-- On a consistent non-empty track the interpolation step ends without an error, for
every query time. -/
theorem calculate_ok [LinearOrderedField K] (M : JSMath K) (tr : Track K)
    (h : tr.Invariant) (hne : tr._trackPoints ≠ []) (q : K) :
    ∃ r tr2, tr._getCalculateTrackPointByTime M q = .ok (r, tr2) := by
  have hpos : 0 < tr._trackPoints.length := List.length_pos.2 hne
  have hne0 : tr._trackPoints.length ≠ 0 := by omega
  have hs : tr._trackPoints[0]? = some tr._trackPoints[0] :=
    List.getElem?_eq_getElem (by omega)
  have he : tr._trackPoints[tr._trackPoints.length - 1]? =
      some tr._trackPoints[tr._trackPoints.length - 1] :=
    List.getElem?_eq_getElem (by omega)
  by_cases hout : q < (tr._trackPoints[0]).time ∨
      (tr._trackPoints[tr._trackPoints.length - 1]).time < q
  · refine ⟨none, tr, ?_⟩
    unfold Track._getCalculateTrackPointByTime
    simp only [Track.getStartTrackPoint, Track.getEndTrackPoint, hs, he, if_neg hne0, deref,
      bind, Except.bind, pure, Except.pure, if_pos hout]
  · have h1 : (tr._trackPoints[0]).time ≤ q := not_lt.1 (fun hc => hout (Or.inl hc))
    have h2 : q ≤ (tr._trackPoints[tr._trackPoints.length - 1]).time :=
      not_lt.1 (fun hc => hout (Or.inr hc))
    by_cases hlen : 2 ≤ tr._trackPoints.length
    · obtain ⟨l, t0, t1, p0, p1, _, _, _, _, _, _, _, _, _, hcalc⟩ :=
        calculate_bracket M tr h q hlen _ _ hs he h1 h2
      exact ⟨_, _, hcalc⟩
    · have hz : 0 = tr.getTimes.length - 1 := by
        have : tr._trackPoints.length = 1 := by omega
        simp [Track.getTimes, this]
      refine ⟨tr.getTrackPointByTime q, tr, ?_⟩
      unfold Track._getCalculateTrackPointByTime
      simp only [Track.getStartTrackPoint, Track.getEndTrackPoint, hs, he, if_neg hne0,
        deref, bind, Except.bind, pure, Except.pure, if_neg hout, if_pos hz]

end CompletionLemmas

/-! ## The heading over the real numbers -/

section HeadingLemmas

open Real

/-- For a displacement `(dx, dy)` of positive length `s`: `dy / s` lies in `[-1, 1]`, is below
1 when `dx` is not zero, and the cosine of its arc sine is `|dx| / s`. -/
theorem displacement_ratio (dx dy : ℝ) (hs : 0 < √(dx * dx + dy * dy)) :
    -1 ≤ dy / √(dx * dx + dy * dy) ∧ dy / √(dx * dx + dy * dy) ≤ 1 ∧
      (dx ≠ 0 → dy / √(dx * dx + dy * dy) < 1) ∧
      cos (arcsin (dy / √(dx * dx + dy * dy))) = |dx| / √(dx * dx + dy * dy) := by
  have hnn : 0 ≤ dx * dx + dy * dy := add_nonneg (mul_self_nonneg dx) (mul_self_nonneg dy)
  have hsq : √(dx * dx + dy * dy) * √(dx * dx + dy * dy) = dx * dx + dy * dy :=
    Real.mul_self_sqrt hnn
  generalize √(dx * dx + dy * dy) = s at hs hsq
  have habs : |dy| ≤ s := by
    apply abs_le_of_sq_le_sq _ (le_of_lt hs)
    nlinarith [mul_self_nonneg dx]
  have hle := abs_le.1 habs
  refine ⟨?_, ?_, ?_, ?_⟩
  · rw [le_div_iff₀ hs]; linarith [hle.1]
  · rw [div_le_one hs]; exact hle.2
  · intro hdx
    rw [div_lt_one hs]
    have hpos : 0 < dx * dx := mul_self_pos.2 hdx
    by_contra hcon
    have hsd : s ≤ dy := not_lt.1 hcon
    nlinarith
  · rw [Real.cos_arcsin]
    have h1 : 1 - (dy / s) ^ 2 = (dx / s) ^ 2 := by
      field_simp
      nlinarith
    rw [h1, Real.sqrt_sq_eq_abs, abs_div, abs_of_pos hs]

/-- The modulus of `dy + dx i` is the length of the displacement `(dx, dy)`. -/
theorem abs_displacement (dx dy : ℝ) :
    Complex.abs ⟨dy, dx⟩ = √(dx * dx + dy * dy) := by
  rw [Complex.abs_apply, Complex.normSq_mk, add_comm]

end HeadingLemmas

section HeadingSpec

open Real

/-- The heading computed with the real square root, arc sine and `π`, for a displacement
`(dx, dy) = (x1 - x0, y1 - y0)` of positive length: it lies in `[0, 360)`, it is the argument
of `dy + dx i` (that is `atan2(dx, dy)`) in degrees, moved into `[0, 360)` by a full turn
when negative, and its sine and cosine are `dx / s` and `dy / s`. -/
theorem heading_real_spec (M : JSMath ℝ) (hasin : M.asin = Real.arcsin) (hpi : M.pi = π)
    (x0 y0 x1 y1 : ℝ)
    (hs : 0 < √((x1 - x0) * (x1 - x0) + (y1 - y0) * (y1 - y0))) :
    0 ≤ heading M (x0, y0) (x1, y1)
        ((y1 - y0) / √((x1 - x0) * (x1 - x0) + (y1 - y0) * (y1 - y0))) ∧
      heading M (x0, y0) (x1, y1)
        ((y1 - y0) / √((x1 - x0) * (x1 - x0) + (y1 - y0) * (y1 - y0))) < 360 ∧
      heading M (x0, y0) (x1, y1)
          ((y1 - y0) / √((x1 - x0) * (x1 - x0) + (y1 - y0) * (y1 - y0))) =
        (if 0 ≤ Complex.arg ⟨y1 - y0, x1 - x0⟩ then Complex.arg ⟨y1 - y0, x1 - x0⟩
          else Complex.arg ⟨y1 - y0, x1 - x0⟩ + 2 * π) * 180 / π ∧
      sin (heading M (x0, y0) (x1, y1)
          ((y1 - y0) / √((x1 - x0) * (x1 - x0) + (y1 - y0) * (y1 - y0))) * π / 180) =
        (x1 - x0) / √((x1 - x0) * (x1 - x0) + (y1 - y0) * (y1 - y0)) ∧
      cos (heading M (x0, y0) (x1, y1)
          ((y1 - y0) / √((x1 - x0) * (x1 - x0) + (y1 - y0) * (y1 - y0))) * π / 180) =
        (y1 - y0) / √((x1 - x0) * (x1 - x0) + (y1 - y0) * (y1 - y0)) := by
  obtain ⟨hu1, hu2, hu3, hcos⟩ := displacement_ratio (x1 - x0) (y1 - y0) hs
  have habs := abs_displacement (x1 - x0) (y1 - y0)
  have hsin := Real.sin_arcsin hu1 hu2
  have ha1 := Real.neg_pi_div_two_le_arcsin
    ((y1 - y0) / √((x1 - x0) * (x1 - x0) + (y1 - y0) * (y1 - y0)))
  have ha2 := Real.arcsin_le_pi_div_two
    ((y1 - y0) / √((x1 - x0) * (x1 - x0) + (y1 - y0) * (y1 - y0)))
  have hpos := Real.pi_pos
  have hpne : π ≠ 0 := ne_of_gt hpos
  unfold heading
  simp only [hasin, hpi]
  generalize hu : (y1 - y0) / √((x1 - x0) * (x1 - x0) + (y1 - y0) * (y1 - y0)) = u at *
  generalize hsdef : √((x1 - x0) * (x1 - x0) + (y1 - y0) * (y1 - y0)) = s at *
  by_cases hdx : x0 ≤ x1
  · have hdx0 : 0 ≤ x1 - x0 := sub_nonneg.2 hdx
    have hz : (⟨y1 - y0, x1 - x0⟩ : ℂ) ≠ 0 := by
      intro hz
      have h0 := congrArg Complex.abs hz
      rw [habs, map_zero] at h0
      exact absurd h0 (ne_of_gt hs)
    have harg : Complex.arg ⟨y1 - y0, x1 - x0⟩ = π / 2 - arcsin u := by
      rw [Complex.arg_of_im_nonneg_of_ne_zero hdx0 hz, habs, hu,
        Real.arccos_eq_pi_div_two_sub_arcsin]
    have hargnn : 0 ≤ Complex.arg ⟨y1 - y0, x1 - x0⟩ := Complex.arg_nonneg_iff.2 hdx0
    have hangle : (π * (1 / 2) - arcsin u) * 180 / π * π / 180 = π / 2 - arcsin u := by
      field_simp
      ring
    simp only [if_pos hdx, if_pos hargnn]
    refine ⟨?_, ?_, ?_, ?_, ?_⟩
    · apply div_nonneg _ hpos.le
      nlinarith
    · rw [div_lt_iff₀ hpos]
      nlinarith
    · rw [harg]
      ring
    · rw [hangle, Real.sin_pi_div_two_sub, hcos, abs_of_nonneg hdx0]
    · rw [hangle, Real.cos_pi_div_two_sub, hsin]
  · have hdx0 : x1 - x0 < 0 := sub_neg.2 (not_le.1 hdx)
    have hult : u < 1 := hu3 (ne_of_lt hdx0)
    have ha3 : arcsin u < π / 2 := Real.arcsin_lt_pi_div_two.2 hult
    have harg : Complex.arg ⟨y1 - y0, x1 - x0⟩ = -(π / 2 - arcsin u) := by
      rw [Complex.arg_of_im_neg hdx0, habs, hu, Real.arccos_eq_pi_div_two_sub_arcsin]
    have hargneg : ¬ 0 ≤ Complex.arg ⟨y1 - y0, x1 - x0⟩ :=
      not_le.2 (Complex.arg_neg_iff.2 hdx0)
    have hangle : (π * (3 / 2) + arcsin u) * 180 / π * π / 180 = arcsin u + π / 2 + π := by
      field_simp
      ring
    simp only [if_neg hdx, if_neg hargneg]
    refine ⟨?_, ?_, ?_, ?_, ?_⟩
    · apply div_nonneg _ hpos.le
      nlinarith
    · rw [div_lt_iff₀ hpos]
      nlinarith
    · rw [harg]
      ring
    · rw [hangle, Real.sin_add_pi, Real.sin_add_pi_div_two, hcos, abs_of_neg hdx0]
      ring
    · rw [hangle, Real.cos_add_pi, Real.cos_add_pi_div_two, hsin]
      ring

end HeadingSpec

/-! ## The claims -/

/-- C1: for a track built by the constructor from any list of points and extended by any
sequence of single-point adds, `getTimes()` is non-decreasing, is a rearrangement of the
times of all inserted points (duplicates kept), and so is the inserted times in ascending
order.  As the sequence of adds is arbitrary, this holds after construction and after each
add. -/
theorem getTimes_sorted_perm {K : Type} [LinearOrder K] (trackData adds : List (TrackPoint K)) :
    (Track.build trackData adds).getTimes.Sorted (fun a b => a ≤ b) ∧
      (Track.build trackData adds).getTimes.Perm ((trackData ++ adds).map (fun p => p.time)) ∧
      (Track.build trackData adds).getTimes =
        ((trackData ++ adds).map (fun p => p.time)).insertionSort (fun a b => a ≤ b) := by
  have hsorted := (build_invariant trackData adds).1
  have hperm : (Track.build trackData adds).getTimes.Perm
      ((trackData ++ adds).map (fun p => p.time)) := by
    have := (build_storage trackData adds).1.map (fun p => p.time)
    simpa [Track.getTimes, TrackPoint.markOrigin, Function.comp_def] using this
  refine ⟨hsorted, hperm, ?_⟩
  exact List.eq_of_perm_of_sorted
    (hperm.trans (List.perm_insertionSort _ _).symm) hsorted (List.sorted_insertionSort _ _)

/-- C3: for a track built by the constructor and single-point adds and every time `t`,
`getTrackPointByTime(t)` is the point inserted latest among the inserted points of time `t`
(marked `isOrigin`); so it is a stored point of time `t` when one exists and `undefined`
otherwise. -/
theorem getTrackPointByTime_last_write_wins {K : Type} [LinearOrder K]
    (trackData adds : List (TrackPoint K)) (t : K) :
    (Track.build trackData adds).getTrackPointByTime t =
        (((trackData ++ adds).map TrackPoint.markOrigin).filter
          (fun p => decide (p.time = t))).getLast? ∧
      (∀ p, (Track.build trackData adds).getTrackPointByTime t = some p →
        p ∈ (Track.build trackData adds)._trackPoints ∧ p.time = t) ∧
      ((∃ p ∈ (Track.build trackData adds)._trackPoints, p.time = t) →
        ∃ p, (Track.build trackData adds).getTrackPointByTime t = some p) ∧
      ((¬ ∃ p ∈ (Track.build trackData adds)._trackPoints, p.time = t) →
        (Track.build trackData adds).getTrackPointByTime t = none) := by
  have hget := getTrackPointByTime_eq_getLast _ (build_invariant trackData adds) t
  have hfilter := (build_storage trackData adds).2 t
  refine ⟨by rw [hget, hfilter], ?_, ?_, ?_⟩
  · intro p hp
    rw [hget] at hp
    have hmem := List.mem_of_getLast?_eq_some hp
    simpa using List.mem_filter.1 hmem
  · rintro ⟨p, hp, hpt⟩
    rw [hget]
    have hne : (Track.build trackData adds)._trackPoints.filter
        (fun p => decide (p.time = t)) ≠ [] :=
      List.ne_nil_of_mem (List.mem_filter.2 ⟨hp, by simpa using hpt⟩)
    exact ⟨_, List.getLast?_eq_getLast _ hne⟩
  · intro hno
    rw [hget]
    have : (Track.build trackData adds)._trackPoints.filter
        (fun p => decide (p.time = t)) = [] := by
      rw [List.filter_eq_nil_iff]
      intro p hp hpt
      exact hno ⟨p, hp, by simpa using hpt⟩
    rw [this]
    rfl

/-- C4 (as the code has it): `getStartTrackPoint()` and `getEndTrackPoint()` never raise.
On every track they return the first and the last entry of the storage; on a track with no
points both return `undefined`. -/
theorem getStartEnd_value {K : Type} (tr : Track K) :
    tr.getStartTrackPoint = .ok tr._trackPoints.head? ∧
      tr.getEndTrackPoint = .ok tr._trackPoints.getLast? := by
  refine ⟨by simp [Track.getStartTrackPoint, List.head?_eq_getElem?], ?_⟩
  unfold Track.getEndTrackPoint
  cases hpts : tr._trackPoints with
  | nil => simp
  | cons p ps => simp [List.getLast?_eq_getElem?]

/-- C4 as stated fails on the empty track: neither call ends with `EmptyTrackError`, both
return `undefined`. -/
theorem getStartEnd_empty_no_error :
    (Track.construct ([] : List (TrackPoint ℚ))).getStartTrackPoint = .ok none ∧
      (Track.construct ([] : List (TrackPoint ℚ))).getEndTrackPoint = .ok none ∧
      (Track.construct ([] : List (TrackPoint ℚ))).getStartTrackPoint ≠
        .error .emptyTrackError ∧
      (Track.construct ([] : List (TrackPoint ℚ))).getEndTrackPoint ≠
        .error .emptyTrackError := by
  refine ⟨rfl, rfl, ?_, ?_⟩ <;> intro h <;> cases h

/-- C9: on a non-empty consistent track, for a query time before the first point or after
the last point, `getTrackPointsBeforeTime` returns exactly the stored points of an earlier
time, in stored order, with no further point, and leaves the track as it is; this is the
empty list before the start and the whole storage after the end. -/
theorem getTrackPointsBeforeTime_outside {K : Type} [LinearOrderedField K] (M : JSMath K)
    (tr : Track K) (h : tr.Invariant) (s e : TrackPoint K)
    (hs : tr.getStartTrackPoint = .ok (some s)) (he : tr.getEndTrackPoint = .ok (some e))
    (t : K) (hout : t < s.time ∨ e.time < t) :
    tr.getTrackPointsBeforeTime M t =
        .ok (tr._trackPoints.filter (fun p => decide (p.time < t)), tr) ∧
      (t < s.time → tr._trackPoints.filter (fun p => decide (p.time < t)) = []) ∧
      (e.time < t → tr._trackPoints.filter (fun p => decide (p.time < t)) = tr._trackPoints) := by
  rw [getStartTrackPoint_ok_iff] at hs
  rw [getEndTrackPoint_ok_iff] at he
  obtain ⟨hne, he⟩ := he
  refine ⟨?_, ?_, ?_⟩
  · unfold Track.getTrackPointsBeforeTime Track._getCalculateTrackPointByTime
    simp only [Track.getStartTrackPoint, Track.getEndTrackPoint, hs, he, if_neg hne, deref,
      bind, Except.bind, pure, Except.pure, if_pos hout]
  · intro hlt
    rw [List.filter_eq_nil_iff]
    intro p hp hpt
    have := (bounds_le tr h s e hs he p hp).1
    exact absurd (lt_of_le_of_lt this (by simpa using hpt)) (not_lt.2 (le_of_lt hlt))
  · intro hlt
    rw [List.filter_eq_self]
    intro p hp
    have := (bounds_le tr h s e hs he p hp).2
    simpa using lt_of_le_of_lt this hlt

/-- C10: on a non-empty consistent track, for a query time between the time of the first
and of the last point (bounds included), `getTrackPointsBeforeTime` returns every stored
point of an earlier time, in stored (ascending) order, followed by exactly one further
point; the returned list is non-decreasing in time. -/
theorem getTrackPointsBeforeTime_inside {K : Type} [LinearOrderedField K] (M : JSMath K)
    (tr : Track K) (h : tr.Invariant) (s e : TrackPoint K)
    (hs : tr.getStartTrackPoint = .ok (some s)) (he : tr.getEndTrackPoint = .ok (some e))
    (q : K) (h1 : s.time ≤ q) (h2 : q ≤ e.time) :
    ∃ tail tr2,
      tr.getTrackPointsBeforeTime M q =
        .ok (tr._trackPoints.filter (fun p => decide (p.time < q)) ++ [tail], tr2) ∧
      (tr._trackPoints.filter (fun p => decide (p.time < q)) ++ [tail]).length =
        tr._trackPoints.countP (fun p => decide (p.time < q)) + 1 ∧
      ((tr._trackPoints.filter (fun p => decide (p.time < q)) ++ [tail]).map
        (fun p => p.time)).Sorted (fun a b => a ≤ b) := by
  rw [getStartTrackPoint_ok_iff] at hs
  rw [getEndTrackPoint_ok_iff] at he
  obtain ⟨hne, he⟩ := he
  have key : ∃ tail tr2, tr._getCalculateTrackPointByTime M q = .ok (some tail, tr2) ∧
      q ≤ tail.time := by
    by_cases hlen : 2 ≤ tr._trackPoints.length
    · obtain ⟨l, t0, t1, p0, p1, _, _, _, _, hle1, _, _, _, hp1t, hcalc⟩ :=
        calculate_bracket M tr h q hlen s e hs he h1 h2
      obtain ⟨tail, tr2, hint, htail⟩ := interpolate_tail M tr q (tr.getTrackPointByTime q)
        p0 p1 t0 t1 (fun ep hep => (getTrackPointByTime_mem tr h q ep hep).2)
      refine ⟨tail, tr2, by rw [hcalc, hint], ?_⟩
      rcases htail with rfl | ht
      · rw [hp1t]; exact hle1
      · rw [ht]
    · have hlen1 : tr._trackPoints.length = 1 := by omega
      have hse : s = e := by
        rw [hlen1] at he
        exact Option.some.inj (hs.symm.trans he)
      subst hse
      have hq : s.time = q := le_antisymm h1 h2
      obtain ⟨p, hp, _, hpt⟩ := getTrackPointByTime_of_mem tr h s (List.getElem?_mem hs)
      rw [hq] at hp
      refine ⟨p, tr, ?_, by rw [hpt, hq]⟩
      have hcond : ¬ (q < s.time ∨ s.time < q) := by simp [hq]
      have hz : 0 = tr.getTimes.length - 1 := by simp [Track.getTimes, hlen1]
      unfold Track._getCalculateTrackPointByTime
      simp only [Track.getStartTrackPoint, Track.getEndTrackPoint, hs, he, if_neg hne, deref,
        bind, Except.bind, pure, Except.pure, if_neg hcond, if_pos hz, hp]
  obtain ⟨tail, tr2, hcalc, htail⟩ := key
  refine ⟨tail, tr2, ?_, ?_, ?_⟩
  · unfold Track.getTrackPointsBeforeTime
    simp only [hcalc, bind, Except.bind, pure, Except.pure]
  · simp [List.countP_eq_length_filter]
  · rw [List.map_append]
    refine List.pairwise_append.2 ⟨?_, by simp, ?_⟩
    · exact (List.pairwise_map.2 ((List.pairwise_map.1 h.1).sublist (List.filter_sublist _)))
    · intro a ha b hb
      simp only [List.map_cons, List.map_nil, List.mem_singleton] at hb
      obtain ⟨p, hp, rfl⟩ := List.mem_map.1 ha
      have hpq : p.time < q := by simpa using (List.mem_filter.1 hp).2
      rw [hb]
      exact le_of_lt (lt_of_lt_of_le hpq htail)

/-- C5: on a consistent track, for a query time `t` strictly between two neighbouring
stored times `t0 < t < t1`, with `p0`, `p1` the points addressed at `t0`, `t1`, at distinct
positions (`s > 0`) and both with a radius: `t` is not a stored time, and the last element
of `getTrackPointsBeforeTime(t)` is a new point with `time = t`, `isOrigin = false`, and
`lng`, `lat`, `radius` interpolated linearly in time between `p0` and `p1`; it lies on the
segment from `p0` to `p1`, at the fraction `(t - t0) / (t1 - t0)` of its length. -/
theorem interpolated_tail_on_segment {K : Type} [LinearOrderedField K] (M : JSMath K)
    (tr : Track K) (h : tr.Invariant) (i : Nat) (t0 t1 t : K) (p0 p1 : TrackPoint K)
    (r0 r1 : K)
    (ht0 : tr.getTimes[i]? = some t0) (ht1 : tr.getTimes[i + 1]? = some t1)
    (hlt0 : t0 < t) (hlt1 : t < t1)
    (hp0 : tr.getTrackPointByTime t0 = some p0) (hp1 : tr.getTrackPointByTime t1 = some p1)
    (hs : 0 < distanceTo M (p0.lng, p0.lat) (p1.lng, p1.lat))
    (hr0 : p0.radius = .num r0) (hr1 : p1.radius = .num r1) :
    ∃ tail,
      tr.getTrackPointsBeforeTime M t =
        .ok (tr._trackPoints.filter (fun p => decide (p.time < t)) ++ [tail], tr) ∧
      tr.getTrackPointByTime t = none ∧
      tail.time = t ∧ tail.isOrigin = false ∧
      tail.lng = p0.lng + (p1.lng - p0.lng) * (t - t0) / (t1 - t0) ∧
      tail.lat = p0.lat + (p1.lat - p0.lat) * (t - t0) / (t1 - t0) ∧
      tail.radius = .num (r0 + (r1 - r0) * (t - t0) / (t1 - t0)) ∧
      0 < (t - t0) / (t1 - t0) ∧ (t - t0) / (t1 - t0) < 1 ∧
      (tail.lng - p0.lng) ^ 2 + (tail.lat - p0.lat) ^ 2 =
        ((t - t0) / (t1 - t0)) ^ 2 * ((p1.lng - p0.lng) ^ 2 + (p1.lat - p0.lat) ^ 2) := by
  obtain ⟨hnone, hcalc⟩ := calculate_between M tr h i t0 t1 t p0 p1 ht0 ht1 hlt0 hlt1 hp0 hp1
  have hlt : t0 < t1 := lt_trans hlt0 hlt1
  obtain ⟨tail, hint, htime, horigin, hlng, hlat, hrad⟩ :=
    interpolate_none_pos M tr t p0 p1 t0 t1 hs hlt
  have hd : 0 < t1 - t0 := sub_pos.2 hlt
  refine ⟨tail, ?_, hnone, htime, horigin, hlng, hlat, hrad r0 r1 hr0 hr1, ?_, ?_, ?_⟩
  · unfold Track.getTrackPointsBeforeTime
    simp only [hcalc, hint, bind, Except.bind, pure, Except.pure]
  · exact div_pos (sub_pos.2 hlt0) hd
  · rw [div_lt_one hd]
    exact sub_lt_sub_right hlt1 t0
  · rw [hlng, hlat]
    field_simp
    ring

/-- C5 at the scenario track: the point for time 5 has `lng = 5`, `lat = 0`, radius 15. -/
theorem interpolated_tail_on_segment_witness :
    ∃ tail,
      scenarioTrack.getTrackPointsBeforeTime ratMath 5 =
        .ok (scenarioTrack._trackPoints.filter (fun p => decide (p.time < 5)) ++ [tail],
          scenarioTrack) ∧
      tail.time = 5 ∧ tail.isOrigin = false ∧ tail.lng = 5 ∧ tail.lat = 0 ∧
      tail.radius = .num 15 := by
  obtain ⟨tail, h1, _, h2, h3, h4, h5, h6, _⟩ :=
    interpolated_tail_on_segment ratMath scenarioTrack (construct_invariant _) 0 0 10 5
      (samplePoint 0 0 0 (.num 10)).markOrigin (samplePoint 10 0 10 (.num 20)).markOrigin
      10 20 rfl rfl (by norm_num) (by norm_num) rfl rfl
      (by norm_num [distanceTo, samplePoint, TrackPoint.markOrigin, ratMath_sqrt_hundred])
      rfl rfl
  refine ⟨tail, h1, h2, h3, ?_, ?_, ?_⟩
  · rw [h4]; norm_num [samplePoint, TrackPoint.markOrigin]
  · rw [h5]; norm_num [samplePoint, TrackPoint.markOrigin]
  · rw [h6]; norm_num

/-- C6 (as the code has it): on the scenario track the exact lookup
`getTrackPointByTime(5)` finds nothing; it is `_getCalculateTrackPointByTime(5)`, the last
element of `getTrackPointsBeforeTime(5)`, that yields a point with time 5, `lat` 0, `lng` 5,
radius 15 and `isOrigin` false (for any square root that is positive at 100). -/
theorem scenario_interpolation (M : JSMath ℚ) (hM : 0 < M.sqrt 100) :
    scenarioTrack.getTrackPointByTime 5 = none ∧
      ∃ tail,
        scenarioTrack._getCalculateTrackPointByTime M 5 = .ok (some tail, scenarioTrack) ∧
        scenarioTrack.getTrackPointsBeforeTime M 5 =
          .ok ([(samplePoint 0 0 0 (.num 10)).markOrigin, tail], scenarioTrack) ∧
        tail.time = 5 ∧ tail.lat = 0 ∧ tail.lng = 5 ∧ tail.radius = .num 15 ∧
        tail.isOrigin = false := by
  obtain ⟨hnone, hcalc⟩ := calculate_between M scenarioTrack (construct_invariant _) 0 0 10 5
    (samplePoint 0 0 0 (.num 10)).markOrigin (samplePoint 10 0 10 (.num 20)).markOrigin
    rfl rfl (by norm_num) (by norm_num) rfl rfl
  have hs : 0 < distanceTo M ((samplePoint 0 0 0 (.num 10)).markOrigin.lng,
      (samplePoint 0 0 0 (.num 10)).markOrigin.lat)
      ((samplePoint 10 0 10 (.num 20)).markOrigin.lng,
        (samplePoint 10 0 10 (.num 20)).markOrigin.lat) := by
    norm_num [distanceTo, samplePoint, TrackPoint.markOrigin]
    exact hM
  obtain ⟨tail, hint, htime, horigin, hlng, hlat, hrad⟩ :=
    interpolate_none_pos M scenarioTrack 5 _ _ 0 10 hs (by norm_num)
  refine ⟨hnone, tail, by rw [hcalc, hint], ?_, htime, ?_, ?_, ?_, horigin⟩
  · unfold Track.getTrackPointsBeforeTime
    simp only [hcalc, hint, bind, Except.bind, pure, Except.pure]
    rfl
  · rw [hlat]; norm_num [samplePoint, TrackPoint.markOrigin]
  · rw [hlng]; norm_num [samplePoint, TrackPoint.markOrigin]
  · rw [hrad 10 20 rfl rfl]; norm_num

/-- C6 with the rational square root, which is 10 at 100. -/
theorem scenario_interpolation_witness :
    scenarioTrack.getTrackPointByTime 5 = none ∧
      ∃ tail,
        scenarioTrack._getCalculateTrackPointByTime ratMath 5 =
          .ok (some tail, scenarioTrack) ∧
        scenarioTrack.getTrackPointsBeforeTime ratMath 5 =
          .ok ([(samplePoint 0 0 0 (.num 10)).markOrigin, tail], scenarioTrack) ∧
        tail.time = 5 ∧ tail.lat = 0 ∧ tail.lng = 5 ∧ tail.radius = .num 15 ∧
        tail.isOrigin = false :=
  scenario_interpolation ratMath (by rw [ratMath_sqrt_hundred]; norm_num)

/-- C6 as stated fails: on the scenario track `getTrackPointByTime(5)` yields no point. -/
theorem scenario_exact_lookup_absent :
    scenarioTrack.getTrackPointByTime 5 = none ∧
      ¬ ∃ p, scenarioTrack.getTrackPointByTime 5 = some p ∧ p.time = 5 ∧ p.lat = 0 ∧
        p.lng = 5 ∧ p.radius = .num 15 ∧ p.isOrigin = false := by
  have h : scenarioTrack.getTrackPointByTime 5 = none := rfl
  refine ⟨h, ?_⟩
  rintro ⟨p, hp, _⟩
  rw [h] at hp
  cases hp

/-- C7 (as the code has it): on a consistent track, for a query time `t` strictly between
two neighbouring stored times `t0 < t < t1` whose addressed points `p0`, `p1` are at the
same position (`s <= 0`), the last element of `getTrackPointsBeforeTime(t)` is `p1` itself,
in every field: its time is `t1`, not `t`. -/
theorem coincident_tail_is_p1 {K : Type} [LinearOrderedField K] (M : JSMath K)
    (tr : Track K) (h : tr.Invariant) (i : Nat) (t0 t1 t : K) (p0 p1 : TrackPoint K)
    (ht0 : tr.getTimes[i]? = some t0) (ht1 : tr.getTimes[i + 1]? = some t1)
    (hlt0 : t0 < t) (hlt1 : t < t1)
    (hp0 : tr.getTrackPointByTime t0 = some p0) (hp1 : tr.getTrackPointByTime t1 = some p1)
    (hs : distanceTo M (p0.lng, p0.lat) (p1.lng, p1.lat) ≤ 0) :
    tr.getTrackPointsBeforeTime M t =
        .ok (tr._trackPoints.filter (fun p => decide (p.time < t)) ++ [p1], tr) ∧
      p1.time = t1 ∧ p1.time ≠ t := by
  obtain ⟨_, hcalc⟩ := calculate_between M tr h i t0 t1 t p0 p1 ht0 ht1 hlt0 hlt1 hp0 hp1
  have hp1t : p1.time = t1 := (getTrackPointByTime_mem tr h t1 p1 hp1).2
  refine ⟨?_, hp1t, by rw [hp1t]; exact ne_of_gt hlt1⟩
  unfold Track.getTrackPointsBeforeTime
  simp only [hcalc, interpolate_of_le M tr t none p0 p1 t0 t1 hs, bind, Except.bind, pure,
    Except.pure]

/-- C7 at the resting track: the list for time 5 ends with the stored point of time 10. -/
theorem coincident_tail_is_p1_witness :
    restingTrack.getTrackPointsBeforeTime ratMath 5 =
        .ok (restingTrack._trackPoints.filter (fun p => decide (p.time < 5)) ++
          [(samplePoint 10 0 0 (.num 20)).markOrigin], restingTrack) ∧
      (samplePoint 10 0 0 (.num 20)).markOrigin.time = 10 ∧
      (samplePoint 10 0 0 (.num 20)).markOrigin.time ≠ 5 :=
  coincident_tail_is_p1 ratMath restingTrack (construct_invariant _) 0 0 10 5
    (samplePoint 0 0 0 (.num 10)).markOrigin (samplePoint 10 0 0 (.num 20)).markOrigin
    rfl rfl (by norm_num) (by norm_num) rfl rfl
    (by norm_num [distanceTo, samplePoint, TrackPoint.markOrigin, ratMath_sqrt_zero])

/-- C7 as stated fails on the resting track: its points of times 0 and 10 are at the same
position, and the point produced for time 5 has time 10, not 5. -/
theorem coincident_tail_time_not_query :
    (samplePoint 0 0 0 (.num 10)).lat = (samplePoint 10 0 0 (.num 20)).lat ∧
      (samplePoint 0 0 0 (.num 10)).lng = (samplePoint 10 0 0 (.num 20)).lng ∧
      (restingTrack.getTrackPointsBeforeTime ratMath 5).toOption.map
          (fun r => r.1.map (fun p => p.time)) = some [0, 10] ∧
      (restingTrack.getTrackPointsBeforeTime ratMath 5).toOption.map
          (fun r => r.1.getLast?.map (fun p => p.time)) ≠ some (some 5) := by
  have hcalc := (calculate_between ratMath restingTrack (construct_invariant _) 0 0 10 5
    (samplePoint 0 0 0 (.num 10)).markOrigin (samplePoint 10 0 0 (.num 20)).markOrigin
    rfl rfl (by norm_num) (by norm_num) rfl rfl).2
  have hs : distanceTo ratMath ((samplePoint 0 0 0 (.num 10)).markOrigin.lng,
      (samplePoint 0 0 0 (.num 10)).markOrigin.lat)
      ((samplePoint 10 0 0 (.num 20)).markOrigin.lng,
        (samplePoint 10 0 0 (.num 20)).markOrigin.lat) ≤ 0 := by
    norm_num [distanceTo, samplePoint, TrackPoint.markOrigin, ratMath_sqrt_zero]
  have hres : restingTrack.getTrackPointsBeforeTime ratMath 5 =
      .ok ([(samplePoint 0 0 0 (.num 10)).markOrigin,
        (samplePoint 10 0 0 (.num 20)).markOrigin], restingTrack) := by
    unfold Track.getTrackPointsBeforeTime
    simp only [hcalc, interpolate_of_le ratMath restingTrack 5 none _ _ 0 10 hs, bind,
      Except.bind, pure, Except.pure]
    rfl
  rw [hres]
  refine ⟨rfl, rfl, rfl, ?_⟩
  simp [Except.toOption, samplePoint, TrackPoint.markOrigin]

/-- C8 (as the code has it): on a consistent track, for a query time `t` at which a stored
point `ep` is addressed, and which is after the start time, or on a single-point track, or
at the start time when the next stored time is `t` too or its point is elsewhere: the last
element of `getTrackPointsBeforeTime(t)` is `ep`, written back at the index of `t`, and no
other stored point and no index entry changes.  On a single-point track, and when the
points `p0`, `p1` that the binary search brackets `t` with are at the same position
(`s <= 0`), `ep` is returned as it is.  When they are at distinct positions (`s > 0`), a
`dir` that was `undefined` becomes the heading of the segment from `p0` to `p1`, and a
`radius` that was `undefined` becomes `NaN` (`ep` is `p0` or `p1`, so the interpolated
radius is computed from the `undefined` one); a `dir` and a `radius` that were set, and
every other field, are kept. -/
theorem exact_hit_tail {K : Type} [LinearOrderedField K] (M : JSMath K) (tr : Track K)
    (h : tr.Invariant) (s : TrackPoint K) (hs : tr.getStartTrackPoint = .ok (some s))
    (t : K) (ep : TrackPoint K) (hep : tr.getTrackPointByTime t = some ep)
    (hcase : s.time < t ∨ tr._trackPoints.length = 1 ∨
      ∃ t1 p1, tr.getTimes[1]? = some t1 ∧ tr.getTrackPointByTime t1 = some p1 ∧
        (t1 = t ∨ 0 < distanceTo M (ep.lng, ep.lat) (p1.lng, p1.lat))) :
    ∃ tail,
      tr.getTrackPointsBeforeTime M t =
        .ok (tr._trackPoints.filter (fun p => decide (p.time < t)) ++ [tail],
          tr.writeBack t tail) ∧
      tail.time = ep.time ∧ tail.lat = ep.lat ∧ tail.lng = ep.lng ∧
      tail.isOrigin = ep.isOrigin ∧ tail.info = ep.info ∧
      (ep.dir ≠ .undefined → tail.dir = ep.dir) ∧
      (ep.radius ≠ .undefined → tail.radius = ep.radius) ∧
      (tr.writeBack t tail)._timeTick = tr._timeTick ∧
      (∀ j, tr._timeTick t ≠ some j →
        (tr.writeBack t tail)._trackPoints[j]? = tr._trackPoints[j]?) ∧
      (tr._trackPoints.length = 1 → tail = ep) ∧
      (2 ≤ tr._trackPoints.length →
        ∃ l t0 t1 p0 p1,
          bracketLoop tr.getTimes t tr.getTimes.length 0 (tr.getTimes.length - 1) =
            some (l, l + 1) ∧
          tr.getTimes[l]? = some t0 ∧ tr.getTimes[l + 1]? = some t1 ∧
          tr.getTrackPointByTime t0 = some p0 ∧ tr.getTrackPointByTime t1 = some p1 ∧
          ((t0 < t ∧ t1 = t ∧ p1 = ep) ∨ (l = 0 ∧ t0 = t ∧ p0 = ep)) ∧
          (distanceTo M (p0.lng, p0.lat) (p1.lng, p1.lat) ≤ 0 → tail = ep) ∧
          (0 < distanceTo M (p0.lng, p0.lat) (p1.lng, p1.lat) →
            (ep.dir = .undefined →
              tail.dir = .num (heading M (p0.lng, p0.lat) (p1.lng, p1.lat)
                ((p1.lat - p0.lat) / distanceTo M (p0.lng, p0.lat) (p1.lng, p1.lat)))) ∧
            (ep.radius = .undefined → tail.radius = .nan))) := by
  rw [getStartTrackPoint_ok_iff] at hs
  obtain ⟨hepmem, hept⟩ := getTrackPointByTime_mem tr h t ep hep
  have hpos : 0 < tr._trackPoints.length := List.length_pos_of_mem hepmem
  have hne : tr._trackPoints.length ≠ 0 := by omega
  have he : tr._trackPoints[tr._trackPoints.length - 1]? =
      some tr._trackPoints[tr._trackPoints.length - 1] :=
    List.getElem?_eq_getElem (by omega)
  obtain ⟨h1, h2⟩ := bounds_le tr h s _ hs he ep hepmem
  rw [hept] at h1 h2
  have key : ∃ tail, tr._getCalculateTrackPointByTime M t =
        .ok (some tail, tr.writeBack t tail) ∧
      tail.time = ep.time ∧ tail.lat = ep.lat ∧ tail.lng = ep.lng ∧
      tail.isOrigin = ep.isOrigin ∧ tail.info = ep.info ∧
      (ep.dir ≠ .undefined → tail.dir = ep.dir) ∧
      (ep.radius ≠ .undefined → tail.radius = ep.radius) ∧
      (tr._trackPoints.length = 1 → tail = ep) ∧
      (2 ≤ tr._trackPoints.length →
        ∃ l t0 t1 p0 p1,
          bracketLoop tr.getTimes t tr.getTimes.length 0 (tr.getTimes.length - 1) =
            some (l, l + 1) ∧
          tr.getTimes[l]? = some t0 ∧ tr.getTimes[l + 1]? = some t1 ∧
          tr.getTrackPointByTime t0 = some p0 ∧ tr.getTrackPointByTime t1 = some p1 ∧
          ((t0 < t ∧ t1 = t ∧ p1 = ep) ∨ (l = 0 ∧ t0 = t ∧ p0 = ep)) ∧
          (distanceTo M (p0.lng, p0.lat) (p1.lng, p1.lat) ≤ 0 → tail = ep) ∧
          (0 < distanceTo M (p0.lng, p0.lat) (p1.lng, p1.lat) →
            (ep.dir = .undefined →
              tail.dir = .num (heading M (p0.lng, p0.lat) (p1.lng, p1.lat)
                ((p1.lat - p0.lat) / distanceTo M (p0.lng, p0.lat) (p1.lng, p1.lat)))) ∧
            (ep.radius = .undefined → tail.radius = .nan))) := by
    by_cases hlen : 2 ≤ tr._trackPoints.length
    · obtain ⟨l, u0, u1, q0, q1, hloop, hu0, hu1, hleft, hle0, hle1, hq0, hq1, _, _, hcalc⟩ :=
        calculate_bracket_search M tr h t hlen s _ hs he h1 h2
      have hs2 : tr.getTimes[0]? = some s.time := by rw [getTimes_getElem?, hs]; rfl
      have hbr : (u0 < t ∧ u1 = t ∧ q1 = ep) ∨ (l = 0 ∧ u0 = t ∧ q0 = ep) := by
        by_cases hst : s.time < t
        · have hu0t : u0 < t := by
            rcases hleft with hl0 | hlt
            · subst hl0
              rw [Option.some.inj (hu0.symm.trans hs2)]
              exact hst
            · exact hlt
          obtain ⟨j, hj, hjep⟩ := List.getElem_of_mem hepmem
          have hjt : tr.getTimes[j]? = some t := by
            rw [getTimes_getElem?, List.getElem?_eq_getElem hj, hjep, ← hept]; rfl
          have hlj : l + 1 ≤ j := by
            by_contra hcon
            have := sorted_getElem?_le _ h.1 j l (by omega) _ _ hjt hu0
            exact absurd this (not_le.2 hu0t)
          have hu1t : u1 = t :=
            le_antisymm (sorted_getElem?_le _ h.1 (l + 1) j hlj _ _ hu1 hjt) hle1
          have hq1' := hq1
          rw [hu1t, hep] at hq1'
          exact Or.inl ⟨hu0t, hu1t, (Option.some.inj hq1').symm⟩
        · have hst2 : s.time = t := le_antisymm h1 (not_lt.1 hst)
          have hl0 : l = 0 := by
            rcases hleft with hl0 | hlt
            · exact hl0
            · have := sorted_getElem?_le _ h.1 0 l (by omega) _ _ hs2 hu0
              rw [hst2] at this
              exact absurd this (not_le.2 hlt)
          have hu0t : u0 = t := by
            rw [← hst2]
            rw [hl0] at hu0
            exact Option.some.inj (hu0.symm.trans hs2)
          have hq0' := hq0
          rw [hu0t, hep] at hq0'
          exact Or.inr ⟨hl0, hu0t, (Option.some.inj hq0').symm⟩
      by_cases hd : distanceTo M (q0.lng, q0.lat) (q1.lng, q1.lat) ≤ 0
      · have hq1ep : q1 = ep := by
          rcases hbr with ⟨_, _, hq⟩ | ⟨hl0, hu0t, hq0ep⟩
          · exact hq
          · rcases hcase with hc | hc | ⟨t1, p1, ht1, hp1, hc⟩
            · rw [← hu0t] at hc
              subst hl0
              rw [Option.some.inj (hu0.symm.trans hs2)] at hc
              exact absurd hc (lt_irrefl _)
            · omega
            · subst hl0
              have hu1t1 : u1 = t1 := Option.some.inj (hu1.symm.trans ht1)
              have hq1' := hq1
              rw [hu1t1, hp1] at hq1'
              have hq1p1 : q1 = p1 := (Option.some.inj hq1').symm
              rcases hc with hc | hc
              · rw [hc, hep] at hp1
                rw [hq1p1]
                exact (Option.some.inj hp1).symm
              · rw [hq0ep, hq1p1] at hd
                exact absurd hc (not_lt.2 hd)
        refine ⟨ep, ?_, rfl, rfl, rfl, rfl, rfl, fun _ => rfl, fun _ => rfl, fun _ => rfl, ?_⟩
        · rw [hcalc, interpolate_of_le M tr t _ q0 q1 u0 u1 hd, hq1ep,
            writeBack_self tr t ep hep]
        · intro _
          exact ⟨l, u0, u1, q0, q1, hloop, hu0, hu1, hq0, hq1, hbr, fun _ => rfl,
            fun hpos => absurd hpos (not_lt.2 hd)⟩
      · obtain ⟨tail, hint, c1, c2, c3, c4, c5, c6, c7, c8, _, c10⟩ :=
          interpolate_some_pos M tr t ep q0 q1 u0 u1 hd
        refine ⟨tail, by rw [hcalc, hep, hint], c1, c2, c3, c4, c5, c6, c7, ?_, ?_⟩
        · intro hone
          omega
        · intro _
          refine ⟨l, u0, u1, q0, q1, hloop, hu0, hu1, hq0, hq1, hbr,
            fun hle => absurd hle hd, fun _ => ⟨c8, ?_⟩⟩
          intro hr
          apply c10 hr
          rcases hbr with ⟨_, _, hq⟩ | ⟨_, _, hq⟩
          · exact Or.inr (by rw [hq]; exact hr)
          · exact Or.inl (by rw [hq]; exact hr)
    · have hlen1 : tr._trackPoints.length = 1 := by omega
      have hcond : ¬ (t < s.time ∨ (tr._trackPoints[tr._trackPoints.length - 1]).time < t) := by
        rintro (hc | hc)
        · exact absurd h1 (not_le.2 hc)
        · exact absurd h2 (not_le.2 hc)
      have hz : 0 = tr.getTimes.length - 1 := by simp [Track.getTimes, hlen1]
      refine ⟨ep, ?_, rfl, rfl, rfl, rfl, rfl, fun _ => rfl, fun _ => rfl, fun _ => rfl,
        fun h2 => absurd h2 hlen⟩
      rw [writeBack_self tr t ep hep]
      unfold Track._getCalculateTrackPointByTime
      simp only [Track.getStartTrackPoint, Track.getEndTrackPoint, hs, he, if_neg hne, deref,
        bind, Except.bind, pure, Except.pure, if_neg hcond, if_pos hz, hep]
  obtain ⟨tail, hcalc, c1, c2, c3, c4, c5, c6, c7, c8, c9⟩ := key
  refine ⟨tail, ?_, c1, c2, c3, c4, c5, c6, c7, writeBack_timeTick tr t tail,
    fun j hj => writeBack_getElem?_ne tr t tail j hj, c8, c9⟩
  unfold Track.getTrackPointsBeforeTime
  simp only [hcalc, bind, Except.bind, pure, Except.pure]

/-- C8 at the scenario track and query time 10, the time of its second point: the tail is
that point with `dir` filled in as 90, the heading of the segment from the first point. -/
theorem exact_hit_tail_witness :
    ∃ tail,
      scenarioTrack.getTrackPointsBeforeTime ratMath 10 =
        .ok (scenarioTrack._trackPoints.filter (fun p => decide (p.time < 10)) ++ [tail],
          scenarioTrack.writeBack 10 tail) ∧
      tail.time = 10 ∧ tail.lat = 0 ∧ tail.lng = 10 ∧ tail.radius = .num 20 ∧
      tail.dir = .num 90 := by
  obtain ⟨tail, h1, h2, h3, h4, _, _, _, h5, _, _, _, hbr⟩ :=
    exact_hit_tail ratMath scenarioTrack (construct_invariant _)
      (samplePoint 0 0 0 (.num 10)).markOrigin rfl 10
      (samplePoint 10 0 10 (.num 20)).markOrigin rfl
      (Or.inl (by norm_num [samplePoint, TrackPoint.markOrigin]))
  obtain ⟨l, t0, t1, p0, p1, _, ht0, ht1, hp0, hp1, _, _, hfill⟩ := hbr (by decide)
  have hlen : scenarioTrack.getTimes.length = 2 := rfl
  have hl : l = 0 := by
    have := (List.getElem?_eq_some.1 ht1).1
    omega
  subst hl
  have e0 : t0 = 0 := (Option.some.inj ht0).symm
  have e1 : t1 = 10 := (Option.some.inj ht1).symm
  subst e0 e1
  have e2 : p0 = (samplePoint 0 0 0 (.num 10)).markOrigin := (Option.some.inj hp0).symm
  have e3 : p1 = (samplePoint 10 0 10 (.num 20)).markOrigin := (Option.some.inj hp1).symm
  subst e2 e3
  have hd : 0 < distanceTo ratMath ((samplePoint 0 0 0 (.num 10)).markOrigin.lng,
      (samplePoint 0 0 0 (.num 10)).markOrigin.lat)
      ((samplePoint 10 0 10 (.num 20)).markOrigin.lng,
        (samplePoint 10 0 10 (.num 20)).markOrigin.lat) := by
    norm_num [distanceTo, samplePoint, TrackPoint.markOrigin, ratMath_sqrt_hundred]
  have hdir := (hfill hd).1 rfl
  refine ⟨tail, h1, h2, h3, h4, h5 (by simp [samplePoint, TrackPoint.markOrigin]), ?_⟩
  rw [hdir]
  norm_num [heading, distanceTo, samplePoint, TrackPoint.markOrigin, ratMath_sqrt_hundred,
    ratMath_asin, ratMath_pi]

/-- C8 as stated fails on the scenario track at query time 10: the stored point of time 10
has no `dir` before the call, and `dir = 90` after it. -/
theorem exact_hit_fills_dir :
    ∃ tail tr2,
      scenarioTrack.getTrackPointsBeforeTime ratMath 10 =
        .ok ([(samplePoint 0 0 0 (.num 10)).markOrigin, tail], tr2) ∧
      (scenarioTrack._trackPoints[1]?).map (fun p => p.dir) = some .undefined ∧
      (tr2._trackPoints[1]?).map (fun p => p.dir) = some (.num 90) ∧
      tail.dir = .num 90 ∧
      tr2._trackPoints ≠ scenarioTrack._trackPoints := by
  have hd : ¬ distanceTo ratMath ((samplePoint 0 0 0 (.num 10)).markOrigin.lng,
      (samplePoint 0 0 0 (.num 10)).markOrigin.lat)
      ((samplePoint 10 0 10 (.num 20)).markOrigin.lng,
        (samplePoint 10 0 10 (.num 20)).markOrigin.lat) ≤ 0 := by
    norm_num [distanceTo, samplePoint, TrackPoint.markOrigin, ratMath_sqrt_hundred]
  obtain ⟨tail, hint, _, _, _, _, _, _, _, hdir, _⟩ :=
    interpolate_some_pos ratMath scenarioTrack 10 (samplePoint 10 0 10 (.num 20)).markOrigin
      (samplePoint 0 0 0 (.num 10)).markOrigin (samplePoint 10 0 10 (.num 20)).markOrigin
      0 10 hd
  have hdir2 : tail.dir = .num 90 := by
    rw [hdir rfl]
    norm_num [heading, distanceTo, samplePoint, TrackPoint.markOrigin, ratMath_sqrt_hundred,
      ratMath_asin, ratMath_pi]
  have hstored : (scenarioTrack.writeBack 10 tail)._trackPoints[1]? = some tail := rfl
  refine ⟨tail, scenarioTrack.writeBack 10 tail, ?_, rfl, ?_, hdir2, ?_⟩
  · unfold Track.getTrackPointsBeforeTime
    simp only [scenario_calculate_at_end, hint, bind, Except.bind, pure, Except.pure]
    rfl
  · rw [hstored, Option.map_some', hdir2]
  · intro hcon
    have h1 : (scenarioTrack.writeBack 10 tail)._trackPoints[1]? =
        scenarioTrack._trackPoints[1]? := by rw [hcon]
    rw [hstored] at h1
    have h2 : scenarioTrack._trackPoints[1]? =
        some (samplePoint 10 0 10 (.num 20)).markOrigin := rfl
    rw [h2] at h1
    have h3 := congrArg TrackPoint.dir (Option.some.inj h1)
    rw [hdir2] at h3
    cases h3

/-- C9 at the scenario track: for time 11, after its last point, the whole storage. -/
theorem getTrackPointsBeforeTime_outside_witness :
    scenarioTrack.getTrackPointsBeforeTime ratMath 11 =
        .ok (scenarioTrack._trackPoints.filter (fun p => decide (p.time < 11)),
          scenarioTrack) ∧
      scenarioTrack._trackPoints.filter (fun p => decide (p.time < 11)) =
        scenarioTrack._trackPoints := by
  obtain ⟨h1, _, h3⟩ := getTrackPointsBeforeTime_outside ratMath scenarioTrack
    (construct_invariant _) (samplePoint 0 0 0 (.num 10)).markOrigin
    (samplePoint 10 0 10 (.num 20)).markOrigin rfl rfl 11
    (Or.inr (by norm_num [samplePoint, TrackPoint.markOrigin]))
  exact ⟨h1, h3 (by norm_num [samplePoint, TrackPoint.markOrigin])⟩

/-- C10 at the scenario track: for time 5, its first point and one further point. -/
theorem getTrackPointsBeforeTime_inside_witness :
    ∃ tail tr2,
      scenarioTrack.getTrackPointsBeforeTime ratMath 5 =
        .ok (scenarioTrack._trackPoints.filter (fun p => decide (p.time < 5)) ++ [tail],
          tr2) ∧
      (scenarioTrack._trackPoints.filter (fun p => decide (p.time < 5)) ++ [tail]).length =
        scenarioTrack._trackPoints.countP (fun p => decide (p.time < 5)) + 1 ∧
      ((scenarioTrack._trackPoints.filter (fun p => decide (p.time < 5)) ++ [tail]).map
        (fun p => p.time)).Sorted (fun a b => a ≤ b) :=
  getTrackPointsBeforeTime_inside ratMath scenarioTrack (construct_invariant _)
    (samplePoint 0 0 0 (.num 10)).markOrigin (samplePoint 10 0 10 (.num 20)).markOrigin
    rfl rfl 5 (by norm_num [samplePoint, TrackPoint.markOrigin])
    (by norm_num [samplePoint, TrackPoint.markOrigin])

/-- C2 fails in the code: given an array of `k` points, `addTrackPoint` adds the `k` points
and then stores the array itself as one more entry, so the stored count grows by `k + 1`
and one stored entry is not a point; adding the points one by one grows it by `k`.  For the
array of the single sample of time 1 on the empty track, the storage is that point followed
by the array. -/
theorem addTrackPoint_array_stores_array {K : Type} [LinearOrder K] (tr : RawTrack K)
    (ps : List (TrackPoint K)) (o : Bool) :
    (tr.addTrackPoint (.array ps o))._trackPoints.length =
        tr._trackPoints.length + ps.length + 1 ∧
      Item.array (ps.map TrackPoint.markOrigin) true ∈
        (tr.addTrackPoint (.array ps o))._trackPoints ∧
      (ps.foldl (fun tr p => tr.addTrackPoint (.point p)) tr)._trackPoints.length =
        tr._trackPoints.length + ps.length ∧
      (RawTrack.addTrackPoint (Track.construct ([] : List (TrackPoint ℚ))).toRaw
          (.array [samplePoint 1 0 0 .undefined] false))._trackPoints =
        [.point (samplePoint 1 0 0 .undefined).markOrigin,
          .array [(samplePoint 1 0 0 .undefined).markOrigin] true] := by
  have hperm := raw_addTrackPoint_perm
    (ps.foldl (fun tr p => tr._addTrackPoint (.point p)) tr)
    (.array (ps.map TrackPoint.markOrigin) o)
  refine ⟨?_, ?_, ?_, rfl⟩
  · show (RawTrack._addTrackPoint _ _)._trackPoints.length = _
    rw [hperm.length_eq, List.length_append, raw_foldl_add_length]
    rfl
  · show _ ∈ (RawTrack._addTrackPoint _ _)._trackPoints
    rw [hperm.mem_iff]
    simp [Item.markOrigin]
  · exact raw_foldl_add_length tr ps

/-- C12 (as the code has it): for a track with at least two points and a query time `q`
with `startTime <= q <= endTime`, the binary search of `_getCalculateTrackPointByTime`
ends with neighbouring indices `right = left + 1` whose times `t0 = times[left]`,
`t1 = times[right]` satisfy `t0 <= q <= t1`, with `t0 < q` unless `left` is the first index:
the bracket is `t0 < q <= t1`, closed on the right.  When the times ascend, every time up to
`left` is at most `q` and every time from `right` on is at least `q`. -/
theorem bracket_search_result {K : Type} [LinearOrder K] (tr : Track K)
    (hsorted : tr.getTimes.Sorted (fun a b => a ≤ b)) (s e : TrackPoint K)
    (hlen : 2 ≤ tr._trackPoints.length)
    (hs : tr.getStartTrackPoint = .ok (some s)) (he : tr.getEndTrackPoint = .ok (some e))
    (q : K) (h1 : s.time ≤ q) (h2 : q ≤ e.time) :
    ∃ l t0 t1,
      bracketLoop tr.getTimes q tr.getTimes.length 0 (tr.getTimes.length - 1) =
        some (l, l + 1) ∧
      tr.getTimes[l]? = some t0 ∧ tr.getTimes[l + 1]? = some t1 ∧
      t0 ≤ q ∧ q ≤ t1 ∧ (l = 0 ∨ t0 < q) ∧
      (∀ j x, j ≤ l → tr.getTimes[j]? = some x → x ≤ q) ∧
      (∀ j x, l + 1 ≤ j → tr.getTimes[j]? = some x → q ≤ x) := by
  rw [getStartTrackPoint_ok_iff] at hs
  rw [getEndTrackPoint_ok_iff] at he
  have hlen2 : tr.getTimes.length = tr._trackPoints.length := by simp [Track.getTimes]
  have hs2 : tr.getTimes[0]? = some s.time := by rw [getTimes_getElem?, hs]; rfl
  have he2 : tr.getTimes[tr.getTimes.length - 1]? = some e.time := by
    rw [getTimes_getElem?, hlen2, he.2]; rfl
  obtain ⟨l, t0, t1, hloop, ht0, ht1, hleft, hright⟩ := bracket_of_track tr q hlen
  have hle0 : t0 ≤ q := by
    rcases hleft with hl0 | hlt
    · subst hl0
      rw [Option.some.inj (ht0.symm.trans hs2)]
      exact h1
    · exact le_of_lt hlt
  have hle1 : q ≤ t1 := by
    rcases hright with hr | hle
    · rw [← hr] at he2
      rw [Option.some.inj (ht1.symm.trans he2)]
      exact h2
    · exact hle
  refine ⟨l, t0, t1, hloop, ht0, ht1, hle0, hle1, hleft, ?_, ?_⟩
  · intro j x hj hx
    exact le_trans (sorted_getElem?_le _ hsorted j l hj _ _ hx ht0) hle0
  · intro j x hj hx
    exact le_trans hle1 (sorted_getElem?_le _ hsorted (l + 1) j hj _ _ ht1 hx)

/-- C12 at the scenario track and query time 5: the bracket is positions 0 and 1. -/
theorem bracket_search_result_witness :
    ∃ l t0 t1,
      bracketLoop scenarioTrack.getTimes 5 scenarioTrack.getTimes.length 0
          (scenarioTrack.getTimes.length - 1) = some (l, l + 1) ∧
      scenarioTrack.getTimes[l]? = some t0 ∧ scenarioTrack.getTimes[l + 1]? = some t1 ∧
      t0 ≤ 5 ∧ 5 ≤ t1 ∧ (l = 0 ∨ t0 < 5) := by
  obtain ⟨l, t0, t1, c1, c2, c3, c4, c5, c6, _⟩ :=
    bracket_search_result scenarioTrack (construct_invariant _).1
      (samplePoint 0 0 0 (.num 10)).markOrigin (samplePoint 10 0 10 (.num 20)).markOrigin
      (by decide) rfl rfl 5 (by norm_num [samplePoint, TrackPoint.markOrigin])
      (by norm_num [samplePoint, TrackPoint.markOrigin])
  exact ⟨l, t0, t1, c1, c2, c3, c4, c5, c6⟩

/-- C12 as stated fails on the scenario track, whose times are 0 and 10, at the query time
10: the search ends on positions 0 and 1, and `t1 = 10` is not after the query time. -/
theorem bracket_right_end_not_strict :
    scenarioTrack.getTimes = [0, 10] ∧
      bracketLoop scenarioTrack.getTimes 10 scenarioTrack.getTimes.length 0
          (scenarioTrack.getTimes.length - 1) = some (0, 1) ∧
      scenarioTrack.getTimes[0]? = some 0 ∧ scenarioTrack.getTimes[1]? = some 10 ∧
      ¬ ((0 : ℚ) ≤ 10 ∧ (10 : ℚ) < 10) := by
  refine ⟨rfl, rfl, rfl, rfl, ?_⟩
  norm_num

/-- C13: on a consistent non-empty track, for every query time, `getTrackPointsBeforeTime`
ends with a result and no error.  With at least two points the binary search ends within
its rounds on two neighbouring positions, both bracket lookups `getTrackPointByTime(t0)`
and `getTrackPointByTime(t1)` are defined, and when the two points are at distinct
positions (`s > 0`) the divisor `t1 - t0` is not zero (for a square root that is 0 at 0). -/
theorem getTrackPointsBeforeTime_completes {K : Type} [LinearOrderedField K] (M : JSMath K)
    (hM : M.sqrt 0 ≤ 0) (tr : Track K) (h : tr.Invariant) (hne : tr._trackPoints ≠ [])
    (q : K) :
    (∃ r tr2, tr.getTrackPointsBeforeTime M q = .ok (r, tr2)) ∧
      (2 ≤ tr._trackPoints.length →
        ∃ l t0 t1 p0 p1,
          bracketLoop tr.getTimes q tr.getTimes.length 0 (tr.getTimes.length - 1) =
            some (l, l + 1) ∧
          tr.getTimes[l]? = some t0 ∧ tr.getTimes[l + 1]? = some t1 ∧
          tr.getTrackPointByTime t0 = some p0 ∧ tr.getTrackPointByTime t1 = some p1 ∧
          (0 < distanceTo M (p0.lng, p0.lat) (p1.lng, p1.lat) → t1 - t0 ≠ 0)) := by
  refine ⟨?_, ?_⟩
  · obtain ⟨r, tr2, hcalc⟩ := calculate_ok M tr h hne q
    unfold Track.getTrackPointsBeforeTime
    cases r with
    | none =>
      exact ⟨tr._trackPoints.filter (fun p => decide (p.time < q)), tr2,
        by simp only [hcalc, bind, Except.bind, pure, Except.pure]⟩
    | some p =>
      exact ⟨tr._trackPoints.filter (fun p => decide (p.time < q)) ++ [p], tr2,
        by simp only [hcalc, bind, Except.bind, pure, Except.pure]⟩
  · intro hlen
    obtain ⟨l, t0, t1, hloop, ht0, ht1, _, _⟩ := bracket_of_track tr q hlen
    obtain ⟨p0, hp0, _, _⟩ := getTrackPointByTime_at tr h l t0 ht0
    obtain ⟨p1, hp1, _, _⟩ := getTrackPointByTime_at tr h (l + 1) t1 ht1
    refine ⟨l, t0, t1, p0, p1, hloop, ht0, ht1, hp0, hp1, ?_⟩
    intro hpos hzero
    have ht : t1 = t0 := sub_eq_zero.1 hzero
    rw [ht, hp0] at hp1
    have hp : p0 = p1 := Option.some.inj hp1
    rw [hp] at hpos
    have hd : distanceTo M (p1.lng, p1.lat) (p1.lng, p1.lat) = M.sqrt 0 := by
      simp [distanceTo]
    rw [hd] at hpos
    exact absurd hpos (not_lt.2 hM)

/-- C13 at the scenario track and query time 5, with the rational square root. -/
theorem getTrackPointsBeforeTime_completes_witness :
    (∃ r tr2, scenarioTrack.getTrackPointsBeforeTime ratMath 5 = .ok (r, tr2)) ∧
      ∃ l t0 t1 p0 p1,
        bracketLoop scenarioTrack.getTimes 5 scenarioTrack.getTimes.length 0
            (scenarioTrack.getTimes.length - 1) = some (l, l + 1) ∧
        scenarioTrack.getTimes[l]? = some t0 ∧ scenarioTrack.getTimes[l + 1]? = some t1 ∧
        scenarioTrack.getTrackPointByTime t0 = some p0 ∧
        scenarioTrack.getTrackPointByTime t1 = some p1 ∧
        (0 < distanceTo ratMath (p0.lng, p0.lat) (p1.lng, p1.lat) → t1 - t0 ≠ 0) := by
  obtain ⟨c1, c2⟩ := getTrackPointsBeforeTime_completes ratMath
    (le_of_eq ratMath_sqrt_zero) scenarioTrack (construct_invariant _)
    (by rw [scenarioTrack_eq]; simp) 5
  exact ⟨c1, c2 (by decide)⟩

/-- C11: over the real numbers, with the real square root, arc sine and `π`, for bracketing
points at distinct positions (`s > 0`) the heading `dir` of the synthesized point satisfies
`0 <= dir < 360` and is the angle of the displacement `(dx, dy) = (p1.lng - p0.lng,
p1.lat - p0.lat)` measured clockwise from north: it is `atan2(dx, dy)`, the argument of
`dy + dx i`, in degrees and moved into `[0, 360)`, and its sine and cosine are `dx / s`
and `dy / s`. -/
theorem synthesized_heading (M : JSMath ℝ) (hsqrt : M.sqrt = Real.sqrt)
    (hasin : M.asin = Real.arcsin) (hpi : M.pi = Real.pi) (tr : Track ℝ) (t : ℝ)
    (p0 p1 : TrackPoint ℝ) (t0 t1 : ℝ)
    (hs : 0 < distanceTo M (p0.lng, p0.lat) (p1.lng, p1.lat)) :
    ∃ tail dir,
      tr.interpolate M t none p0 p1 t0 t1 = (some tail, tr) ∧ tail.dir = .num dir ∧
      0 ≤ dir ∧ dir < 360 ∧
      dir =
        (if 0 ≤ Complex.arg ⟨p1.lat - p0.lat, p1.lng - p0.lng⟩
          then Complex.arg ⟨p1.lat - p0.lat, p1.lng - p0.lng⟩
          else Complex.arg ⟨p1.lat - p0.lat, p1.lng - p0.lng⟩ + 2 * Real.pi) * 180 / Real.pi ∧
      Real.sin (dir * Real.pi / 180) =
        (p1.lng - p0.lng) / distanceTo M (p0.lng, p0.lat) (p1.lng, p1.lat) ∧
      Real.cos (dir * Real.pi / 180) =
        (p1.lat - p0.lat) / distanceTo M (p0.lng, p0.lat) (p1.lng, p1.lat) := by
  have hd : distanceTo M (p0.lng, p0.lat) (p1.lng, p1.lat) =
      Real.sqrt ((p1.lng - p0.lng) * (p1.lng - p0.lng) +
        (p1.lat - p0.lat) * (p1.lat - p0.lat)) := by
    simp [distanceTo, hsqrt]
  have hs2 := hs
  rw [hd] at hs2
  obtain ⟨c1, c2, c3, c4, c5⟩ := heading_real_spec M hasin hpi p0.lng p0.lat p1.lng p1.lat hs2
  unfold Track.interpolate
  simp only [if_neg (not_le.2 hs)]
  refine ⟨_, _, rfl, rfl, ?_⟩
  rw [hd]
  exact ⟨c1, c2, c3, c4, c5⟩

/-- C11 for the displacement from `(0, 0)` to `lng = 10`, `lat = 0`. -/
theorem synthesized_heading_witness :
    ∃ tail dir,
      Track.interpolate
          ({ sqrt := Real.sqrt, asin := Real.arcsin, pi := Real.pi,
             toFixed := fun _ _ => "" } : JSMath ℝ)
          ({ _trackPoints := [], _timeTick := fun _ => none } : Track ℝ) 5 none
          { time := 0, lat := 0, lng := 0, radius := .undefined, dir := .undefined,
            isOrigin := true, info := [] }
          { time := 10, lat := 0, lng := 10, radius := .undefined, dir := .undefined,
            isOrigin := true, info := [] } 0 10 =
        (some tail, { _trackPoints := [], _timeTick := fun _ => none }) ∧
      tail.dir = .num dir ∧ 0 ≤ dir ∧ dir < 360 := by
  obtain ⟨tail, dir, c1, c2, c3, c4, _⟩ :=
    synthesized_heading
      { sqrt := Real.sqrt, asin := Real.arcsin, pi := Real.pi, toFixed := fun _ _ => "" }
      rfl rfl rfl { _trackPoints := [], _timeTick := fun _ => none } 5
      { time := 0, lat := 0, lng := 0, radius := .undefined, dir := .undefined,
        isOrigin := true, info := [] }
      { time := 10, lat := 0, lng := 10, radius := .undefined, dir := .undefined,
        isOrigin := true, info := [] } 0 10
      (by
        show 0 < Real.sqrt _
        exact Real.sqrt_pos.2 (by norm_num))
  exact ⟨tail, dir, c1, c2, c3, c4⟩

end TrackPlayback
